import Mathlib

/-!
A verification development for a small file-organization utility
(`src/main.py` of `recursive-file-move`).  The program lists patient
directories under a root, recursively finds files matching an extension
inside each patient directory, and moves them to the top level of that
patient directory, skipping destinations that already exist.

The filesystem is modelled as a finite association list from absolute
paths (lists of name segments) to nodes (files with abstract content, or
directories).  Fallible operating-system calls (listing a directory,
moving a file) are modelled with explicit failure oracles, so that the
error-handling structure of the Python source (which failures are caught
where) is reflected faithfully:

* `list_patient_directories` wraps its listing in try/except, so a root
  enumeration failure degrades to an empty list;
* `move_dcm_files` wraps each per-file move in try/except, so one file's
  failure is logged and the loop continues;
* the post-move recount in `process_patient_directory` is NOT wrapped,
  so a failure there propagates (modelled by returning `none`).

The inter-move sleep and wall-clock timing of the source are not
modelled (no claim concerns them).
-/

/-- An absolute filesystem path, as a list of name segments. -/
abbrev FPath := List String

/-- A filesystem node: a regular file with abstract content, or a directory. -/
inductive Node where
  | file (content : Nat)
  | dir
deriving DecidableEq

/-- A filesystem: a finite association list from paths to nodes. -/
structure FS where
  entries : List (FPath × Node)
deriving DecidableEq

def Node.isFile : Node → Bool
  | .file _ => true
  | .dir => false

/-- First-match lookup in an association list of filesystem entries. -/
def lookupE : List (FPath × Node) → FPath → Option Node
  | [], _ => none
  | e :: rest, p => if e.1 = p then some e.2 else lookupE rest p

def FS.lookup (fs : FS) (p : FPath) : Option Node :=
  lookupE fs.entries p

/-- Model of `os.path.exists`: true for any node type. -/
def FS.pathExists (fs : FS) (p : FPath) : Bool :=
  (fs.lookup p).isSome

def FS.isFileAt (fs : FS) (p : FPath) : Bool :=
  match fs.lookup p with
  | some (.file _) => true
  | _ => false

def FS.isDirAt (fs : FS) (p : FPath) : Bool :=
  match fs.lookup p with
  | some .dir => true
  | _ => false

/-- Model of `shutil.move` on a file when the destination is free:
the entry at `src` is re-keyed to `dst`, all other entries untouched. -/
def FS.rename (fs : FS) (src dst : FPath) : FS :=
  ⟨fs.entries.map (fun e => if e.1 = src then (dst, e.2) else e)⟩

/-- `below pp p`: `pp` is a (not necessarily proper) leading segment chain of `p`. -/
def below : FPath → FPath → Bool
  | [], _ => true
  | _ :: _, [] => false
  | a :: as, b :: bs => if a = b then below as bs else false

/-- `p` lies strictly inside the subtree rooted at `pp`. -/
def properUnder (pp p : FPath) : Bool :=
  below pp p && decide (pp.length < p.length)

/-- Model of `os.path.basename`: the final segment of a path. -/
def basename : FPath → String
  | [] => ""
  | [a] => a
  | _ :: b :: rest => basename (b :: rest)

/-- Model of Python `str.endswith` on the underlying character lists. -/
def endsWithL (s suf : List Char) : Bool :=
  decide (suf.length ≤ s.length ∧ s.drop (s.length - suf.length) = suf)

/-- Model of Python `str.endswith`: case-sensitive suffix test. -/
def pyEndswith (s suffix : String) : Bool :=
  endsWithL s.data suffix.data

/-- Model of `os.listdir`: names of the immediate children of `d`,
in entry order, entries of any node type included. -/
def FS.listdir (fs : FS) (d : FPath) : List String :=
  fs.entries.filterMap (fun e =>
    if e.1 ≠ [] ∧ e.1.dropLast = d then some (basename e.1) else none)

/-- Paths of the regular files that are immediate children of `d`. -/
def FS.childFiles (fs : FS) (d : FPath) : List FPath :=
  fs.entries.filterMap (fun e =>
    if e.1 ≠ [] ∧ e.1.dropLast = d ∧ e.2.isFile = true then some e.1 else none)

/-- Paths of the directories lying strictly inside the subtree at `pp`. -/
def FS.dirsUnder (fs : FS) (pp : FPath) : List FPath :=
  fs.entries.filterMap (fun e =>
    if e.2 = Node.dir ∧ properUnder pp e.1 = true then some e.1 else none)

def concatMap (f : α → List β) : List α → List β
  | [] => []
  | a :: as => f a ++ concatMap f as

/-- Well-formedness of a filesystem value: paths are distinct and
nonempty, and every proper ancestor of an entry is a directory entry. -/
def FS.Wf (fs : FS) : Prop :=
  (fs.entries.map Prod.fst).Nodup ∧
  (∀ e ∈ fs.entries, e.1 ≠ []) ∧
  (∀ e ∈ fs.entries, ∀ q ∈ e.1.inits, q ≠ [] → q ≠ e.1 → fs.isDirAt q = true)

/-- Structured log messages emitted by the components. -/
inductive LogMsg where
  | infoFoundDirs (n : Nat)
  | errListDirs
  | warnExists (destination : FPath)
  | errMove (file : FPath)
  | infoNoFiles (patient : String)
  | infoBefore (patient : String) (n : Nat)
  | infoAfter (patient : String) (n : Nat)
  | infoMoved (patient : String) (n : Nat)
deriving DecidableEq

/-- State threaded through `move_dcm_files`: the filesystem, the running
moved-files counter, and the log emitted so far. -/
structure MoveState where
  fs : FS
  movedCount : Nat
  log : List LogMsg
deriving DecidableEq

/-- Ascending-order sort on strings (model of Python `list.sort`). -/
def sortStrings (l : List String) : List String :=
  l.insertionSort (· ≤ ·)

/-- Embedding of `list_patient_directories` (src/main.py:27-47).
`rootErr` is the oracle for an `os.listdir` failure at the root (the
listing also fails when the root is not a directory); the failure is
caught and degrades to an empty list with an error log. -/
def list_patient_directories (fs : FS) (disk_path : FPath) (rootErr : Bool)
    (sort : Bool) : List String × List LogMsg :=
  if rootErr || !(fs.isDirAt disk_path) then ([], [.errListDirs])
  else
    let patient_dirs := (fs.listdir disk_path).filter
      (fun d => fs.isDirAt (disk_path ++ [d]))
    ((if sort then sortStrings patient_dirs else patient_dirs),
      [.infoFoundDirs patient_dirs.length])

/-- Embedding of `list_dcm_files` (src/main.py:50-60): walk the subtree
of `patient_path` (the root directory itself first, as `os.walk` does)
and collect each file whose name ends with `file_extension`. -/
def list_dcm_files (fs : FS) (patient_path : FPath) (file_extension : String) :
    List FPath :=
  concatMap
    (fun root => (fs.childFiles root).filter
      (fun f => pyEndswith (basename f) file_extension))
    (patient_path :: fs.dirsUnder patient_path)

/-- One iteration of the loop in `move_dcm_files` (src/main.py:72-82).
`err` is the per-file failure oracle for `shutil.move` (permission, I/O);
a move also fails when the source is no longer a regular file.  Failures
are caught, logged, and the loop continues. -/
def moveOne (err : FPath → Bool) (patient_path : FPath) (st : MoveState)
    (dcm_file : FPath) : MoveState :=
  let destination_path := patient_path ++ [basename dcm_file]
  if st.fs.pathExists destination_path then
    { st with log := st.log ++ [.warnExists destination_path] }
  else if st.fs.isFileAt dcm_file && !err dcm_file then
    { fs := st.fs.rename dcm_file destination_path
      movedCount := st.movedCount + 1
      log := st.log }
  else
    { st with log := st.log ++ [.errMove dcm_file] }

/-- Embedding of `move_dcm_files` (src/main.py:63-83). -/
def move_dcm_files (err : FPath → Bool) (patient_dcm_files : List FPath)
    (patient_path : FPath) (fs : FS) : MoveState :=
  patient_dcm_files.foldl (moveOne err patient_path) ⟨fs, 0, []⟩

/-- Embedding of `process_patient_directory` (src/main.py:86-114).
`rerr` is the failure oracle for the post-move `os.listdir` recount
(src/main.py:108-110); that call is NOT inside a try/except in the
source, so its failure propagates, modelled by returning `none`. -/
def process_patient_directory (err rerr : FPath → Bool) (fs : FS)
    (disk_path : FPath) (patient_dir : String) (file_extension : String) :
    Option (Nat × FS × List LogMsg) :=
  let patient_path := disk_path ++ [patient_dir]
  let patient_dcm_files := list_dcm_files fs patient_path file_extension
  if patient_dcm_files.isEmpty then
    some (0, fs, [.infoNoFiles patient_dir])
  else
    let st := move_dcm_files err patient_dcm_files patient_path fs
    if rerr patient_path || !(st.fs.isDirAt patient_path) then
      none
    else
      let new_dcm_files_count :=
        ((st.fs.listdir patient_path).filter
          (fun name => pyEndswith name file_extension)).length
      some (st.movedCount, st.fs,
        [.infoBefore patient_dir patient_dcm_files.length] ++ st.log ++
        [.infoAfter patient_dir new_dcm_files_count,
         .infoMoved patient_dir st.movedCount])

/-- One iteration of the driver loop in `main` (src/main.py:151-155):
an uncaught exception from `process_patient_directory` aborts the run. -/
def pipelineStep (err rerr : FPath → Bool) (disk_path : FPath)
    (file_extension : String) (acc : Option (Nat × FS)) (p : String) :
    Option (Nat × FS) :=
  match acc with
  | none => none
  | some (t, fs) =>
    match process_patient_directory err rerr fs disk_path p file_extension with
    | none => none
    | some (m, fs', _) => some (t + m, fs')

/-- Embedding of the driver `main` (src/main.py:117-163): list the
patient directories (sorted), process each in order, accumulate the
total moved count. -/
def runPipeline (err rerr : FPath → Bool) (rootErr : Bool) (fs : FS)
    (disk_path : FPath) (file_extension : String) : Option (Nat × FS) :=
  ((list_patient_directories fs disk_path rootErr true).fst).foldl
    (pipelineStep err rerr disk_path file_extension) (some (0, fs))

/-- Per-candidate move outcome, as described by the specification's data
model: moved, skipped because the destination exists, or failed. -/
inductive MoveOutcome where
  | moved
  | skippedExists
  | failed
deriving DecidableEq

/-- Specification-side replay of the per-file algorithm of §4.3,
producing the `MoveOutcome` of each candidate in order. -/
def moveOutcomes (err : FPath → Bool) (patient_path : FPath) (fs : FS) :
    List FPath → List MoveOutcome
  | [] => []
  | f :: rest =>
    let dest := patient_path ++ [basename f]
    if fs.pathExists dest then
      .skippedExists :: moveOutcomes err patient_path fs rest
    else if fs.isFileAt f && !err f then
      .moved :: moveOutcomes err patient_path (fs.rename f dest) rest
    else
      .failed :: moveOutcomes err patient_path fs rest

/-- The filesystem/counter effect of one relocator iteration, with the
log projected away (the loop body never reads the log). -/
def stepFC (err : FPath → Bool) (pp : FPath) (a : FS × Nat) (f : FPath) :
    FS × Nat :=
  let dest := pp ++ [basename f]
  if a.1.pathExists dest then a
  else if a.1.isFileAt f && !err f then (a.1.rename f dest, a.2 + 1)
  else a

/-- Number of regular files directly inside `pp` whose name matches. -/
def matchingFilesDirectCount (fs : FS) (pp : FPath) (ext : String) : Nat :=
  ((fs.childFiles pp).filter (fun f => pyEndswith (basename f) ext)).length

/-- Number of non-file entries directly inside `pp` whose name matches. -/
def matchingNonFilesDirectCount (fs : FS) (pp : FPath) (ext : String) : Nat :=
  (fs.entries.filterMap (fun e =>
    if e.1 ≠ [] ∧ e.1.dropLast = pp ∧ e.2.isFile = false ∧
        pyEndswith (basename e.1) ext = true
    then some e.1 else none)).length

instance (fs : FS) : Decidable fs.Wf := by
  unfold FS.Wf
  infer_instance

/-- Number of warning messages in a log. -/
def countWarns (lg : List LogMsg) : Nat :=
  lg.countP (fun m => match m with | .warnExists _ => true | _ => false)

/-- Number of per-file error messages in a log. -/
def countErrs (lg : List LogMsg) : Nat :=
  lg.countP (fun m => match m with | .errMove _ => true | _ => false)

/-- A patient subtree is settled for oracle `err` when every candidate
the walk would now find either already has its destination present at
the top level, or is a file whose move the oracle makes fail. -/
def Settled (err : FPath → Bool) (fs : FS) (pp : FPath) (ext : String) : Prop :=
  ∀ f ∈ list_dcm_files fs pp ext,
    fs.pathExists (pp ++ [basename f]) = true ∨ err f = true

/-- Invariant established for a candidate once its loop iteration has
run: its top-level destination exists, or its move is doomed by the
oracle, or it is no longer a regular file. -/
def DProp (err : FPath → Bool) (pp : FPath) (st : MoveState) (f : FPath) : Prop :=
  st.fs.pathExists (pp ++ [basename f]) = true ∨ err f = true ∨
    st.fs.isFileAt f = false

/-- Concrete fixture: a root with one patient holding one nested
matching file, one matching file already at top level, and one
non-matching nested file. -/
def fsA : FS := ⟨[(["d"], .dir), (["d","p"], .dir), (["d","p","s"], .dir),
  (["d","p","s","a.dcm"], .file 5), (["d","p","b.dcm"], .file 7),
  (["d","p","s","x.txt"], .file 9)]⟩

/-- The entries of `fsA` in a different enumeration order: the same
tree, as `os.listdir` might report it on another run. -/
def fsA2 : FS := ⟨[(["d","p"], .dir), (["d"], .dir), (["d","p","s"], .dir),
  (["d","p","b.dcm"], .file 7), (["d","p","s","a.dcm"], .file 5),
  (["d","p","s","x.txt"], .file 9)]⟩

/-- Concrete fixture for the recount claim: the patient directory holds
a subdirectory whose own name matches the extension, plus one nested
matching file. -/
def fsB : FS := ⟨[(["d"], .dir), (["d","p"], .dir),
  (["d","p","sub.dcm"], .dir), (["d","p","sub.dcm","a.dcm"], .file 3)]⟩

/-- The filesystem `fsB` after its single candidate has been moved to
the top of the patient directory. -/
def fsB' : FS := ⟨[(["d"], .dir), (["d","p"], .dir),
  (["d","p","sub.dcm"], .dir), (["d","p","a.dcm"], .file 3)]⟩

/-- Concrete fixture with a single lowercase-named matching file. -/
def fsC : FS := ⟨[(["d"], .dir), (["d","p"], .dir),
  (["d","p","x.dcm"], .file 1)]⟩

/-- Concrete fixture with two nested candidates sharing a basename. -/
def fsD : FS := ⟨[(["d"], .dir), (["d","p"], .dir),
  (["d","p","s1"], .dir), (["d","p","s2"], .dir),
  (["d","p","s1","a.dcm"], .file 11), (["d","p","s2","a.dcm"], .file 22)]⟩

/-! ## Basic path lemmas -/

theorem basename_concat (l : List String) (a : String) :
    basename (l ++ [a]) = a := by
  induction l with
  | nil => rfl
  | cons x xs ih =>
    cases xs with
    | nil => rfl
    | cons y ys => simpa [basename] using ih

theorem dropLast_concat_self (p : FPath) (h : p ≠ []) :
    p.dropLast ++ [basename p] = p := by
  induction p with
  | nil => exact absurd rfl h
  | cons x xs ih =>
    cases xs with
    | nil => rfl
    | cons y ys =>
      have h2 := ih (by simp)
      simp only [List.dropLast_cons_of_ne_nil (by simp : (y :: ys) ≠ [])]
      rw [basename, List.cons_append, h2]

theorem below_iff {pp p : FPath} :
    below pp p = true ↔ ∃ s, p = pp ++ s := by
  induction pp generalizing p with
  | nil => simp [below]
  | cons a as ih =>
    cases p with
    | nil =>
      simp only [below, List.cons_append, Bool.false_eq_true, false_iff]
      rintro ⟨s, hs⟩
      cases hs
    | cons b bs =>
      simp only [below, List.cons_append]
      by_cases hab : a = b
      · subst hab
        rw [if_pos rfl, ih]
        constructor
        · rintro ⟨s, rfl⟩
          exact ⟨s, rfl⟩
        · rintro ⟨s, hs⟩
          injection hs with h1 h2
          exact ⟨s, h2⟩
      · rw [if_neg hab]
        simp only [Bool.false_eq_true, false_iff]
        rintro ⟨s, hs⟩
        injection hs with h1 h2
        exact hab h1.symm

theorem properUnder_iff {pp p : FPath} :
    properUnder pp p = true ↔ ∃ s, s ≠ [] ∧ p = pp ++ s := by
  simp only [properUnder, Bool.and_eq_true, below_iff, decide_eq_true_eq]
  constructor
  · rintro ⟨⟨s, hs⟩, hlen⟩
    refine ⟨s, ?_, hs⟩
    intro hnil
    subst hnil
    simp [hs] at hlen
  · rintro ⟨s, hne, hs⟩
    refine ⟨⟨s, hs⟩, ?_⟩
    subst hs
    have : 0 < s.length := List.length_pos.mpr hne
    simp [this]

theorem properUnder_concat {pp p : FPath} (x : String)
    (h : properUnder pp p = true) : properUnder pp (p ++ [x]) = true := by
  rcases properUnder_iff.mp h with ⟨s, hne, rfl⟩
  exact properUnder_iff.mpr ⟨s ++ [x], by simp [hne], by simp⟩

theorem properUnder_self_concat (pp : FPath) (x : String) :
    properUnder pp (pp ++ [x]) = true :=
  properUnder_iff.mpr ⟨[x], by simp, rfl⟩

theorem properUnder_length {pp p : FPath} (h : properUnder pp p = true) :
    pp.length < p.length := by
  rcases properUnder_iff.mp h with ⟨s, hne, rfl⟩
  have : 0 < s.length := List.length_pos.mpr hne
  simp [this]

theorem not_properUnder_self (pp : FPath) : properUnder pp pp = false := by
  by_contra h
  have hx : properUnder pp pp = true := by
    cases hv : properUnder pp pp with
    | false => exact absurd hv h
    | true => rfl
  have := properUnder_length hx
  omega

/-- `pyEndswith` is exactly the case-sensitive suffix test on characters. -/
theorem pyEndswith_iff (s suffix : String) :
    pyEndswith s suffix = true ↔ ∃ pre, s.data = pre ++ suffix.data := by
  unfold pyEndswith endsWithL
  rw [decide_eq_true_eq]
  constructor
  · rintro ⟨hle, hdrop⟩
    refine ⟨s.data.take (s.data.length - suffix.data.length), ?_⟩
    conv_lhs => rw [← List.take_append_drop (s.data.length - suffix.data.length) s.data]
    rw [hdrop]
  · rintro ⟨pre, hpre⟩
    have hlen : s.data.length = pre.length + suffix.data.length := by
      simp [hpre]
    refine ⟨by omega, ?_⟩
    rw [hpre, List.length_append, Nat.add_sub_cancel, List.drop_left]

/-! ## Lookup and rename lemmas -/

theorem lookupE_mem {l : List (FPath × Node)} {p : FPath} {n : Node}
    (h : lookupE l p = some n) : (p, n) ∈ l := by
  induction l with
  | nil => cases h
  | cons e rest ih =>
    by_cases he : e.1 = p
    · simp only [lookupE, if_pos he] at h
      injection h with hn
      have hep : e = (p, n) := by
        rw [Prod.ext_iff]
        exact ⟨he, hn⟩
      rw [← hep]
      exact List.mem_cons_self e rest
    · simp only [lookupE, if_neg he] at h
      exact List.mem_cons_of_mem _ (ih h)

theorem lookupE_eq_none {l : List (FPath × Node)} {p : FPath}
    (h : ∀ e ∈ l, e.1 ≠ p) : lookupE l p = none := by
  induction l with
  | nil => rfl
  | cons e rest ih =>
    have he := h e (by simp)
    simp only [lookupE, if_neg he]
    exact ih (fun e' he' => h e' (List.mem_cons_of_mem _ he'))

theorem lookupE_isSome_of_mem {l : List (FPath × Node)} {p : FPath} {n : Node}
    (h : (p, n) ∈ l) : (lookupE l p).isSome = true := by
  induction l with
  | nil => cases h
  | cons e rest ih =>
    by_cases he : e.1 = p
    · simp [lookupE, if_pos he]
    · rcases List.mem_cons.mp h with h1 | h2
      · exact absurd (by rw [← h1]) he
      · simpa [lookupE, if_neg he] using ih h2

theorem mem_lookupE {l : List (FPath × Node)} {p : FPath} {n : Node}
    (hnd : (l.map Prod.fst).Nodup) (h : (p, n) ∈ l) : lookupE l p = some n := by
  induction l with
  | nil => cases h
  | cons e rest ih =>
    rw [List.map_cons, List.nodup_cons] at hnd
    rcases List.mem_cons.mp h with h1 | h2
    · subst h1
      simp [lookupE]
    · have hne : e.1 ≠ p := by
        intro hep
        exact hnd.1 (hep ▸ List.mem_map.mpr ⟨(p, n), h2, rfl⟩)
      simpa [lookupE, if_neg hne] using ih hnd.2 h2

theorem lookupE_none_forall {l : List (FPath × Node)} {p : FPath}
    (h : lookupE l p = none) : ∀ e ∈ l, e.1 ≠ p := by
  intro e he hep
  have : (lookupE l p).isSome = true :=
    lookupE_isSome_of_mem (p := p) (n := e.2) (by rw [← hep]; exact he)
  rw [h] at this
  cases this

theorem lookupE_rename_of_ne (l : List (FPath × Node)) {src dst q : FPath}
    (h1 : q ≠ src) (h2 : q ≠ dst) :
    lookupE (l.map (fun e => if e.1 = src then (dst, e.2) else e)) q =
      lookupE l q := by
  induction l with
  | nil => rfl
  | cons e rest ih =>
    rw [List.map_cons]
    by_cases he : e.1 = src
    · rw [if_pos he]
      show lookupE ((dst, e.2) :: _) q = _
      rw [lookupE, lookupE, if_neg (fun h => h2 h.symm), if_neg (fun h => h1 (he ▸ h.symm)), ih]
    · rw [if_neg he]
      show lookupE (e :: _) q = lookupE (e :: rest) q
      by_cases heq : e.1 = q
      · rw [lookupE, lookupE, if_pos heq, if_pos heq]
      · rw [lookupE, lookupE, if_neg heq, if_neg heq, ih]

theorem lookupE_rename_src (l : List (FPath × Node)) {src dst : FPath}
    (h : src ≠ dst) :
    lookupE (l.map (fun e => if e.1 = src then (dst, e.2) else e)) src = none := by
  induction l with
  | nil => rfl
  | cons e rest ih =>
    rw [List.map_cons]
    by_cases he : e.1 = src
    · rw [if_pos he]
      show lookupE ((dst, e.2) :: _) src = none
      rw [lookupE, if_neg (fun hx => h hx.symm)]
      exact ih
    · rw [if_neg he]
      show lookupE (e :: _) src = none
      rw [lookupE, if_neg he]
      exact ih

theorem lookupE_rename_dst (l : List (FPath × Node)) {src dst : FPath}
    (h : ∀ e ∈ l, e.1 ≠ dst) :
    lookupE (l.map (fun e => if e.1 = src then (dst, e.2) else e)) dst =
      lookupE l src := by
  induction l with
  | nil => rfl
  | cons e rest ih =>
    have hed : e.1 ≠ dst := h e (by simp)
    rw [List.map_cons]
    by_cases he : e.1 = src
    · rw [if_pos he]
      show lookupE ((dst, e.2) :: _) dst = _
      rw [lookupE, lookupE, if_pos rfl, if_pos he]
    · rw [if_neg he]
      show lookupE (e :: _) dst = _
      rw [lookupE, lookupE, if_neg hed, if_neg he]
      exact ih (fun e' he' => h e' (List.mem_cons_of_mem _ he'))

theorem lookup_rename_of_ne (fs : FS) {src dst q : FPath}
    (h1 : q ≠ src) (h2 : q ≠ dst) :
    (fs.rename src dst).lookup q = fs.lookup q :=
  lookupE_rename_of_ne fs.entries h1 h2

theorem lookup_rename_src (fs : FS) {src dst : FPath} (h : src ≠ dst) :
    (fs.rename src dst).lookup src = none :=
  lookupE_rename_src fs.entries h

theorem lookup_rename_dst (fs : FS) {src dst : FPath}
    (h : fs.lookup dst = none) :
    (fs.rename src dst).lookup dst = fs.lookup src :=
  lookupE_rename_dst fs.entries (lookupE_none_forall h)

theorem keys_rename (l : List (FPath × Node)) (src dst : FPath) :
    (l.map (fun e => if e.1 = src then (dst, e.2) else e)).map Prod.fst =
      (l.map Prod.fst).map (fun p => if p = src then dst else p) := by
  induction l with
  | nil => rfl
  | cons e rest ih =>
    simp only [List.map_cons, ih]
    by_cases he : e.1 = src
    · rw [if_pos he, if_pos he]
    · rw [if_neg he, if_neg he]

theorem nodup_keys_rename (fs : FS) {src dst : FPath}
    (hnd : (fs.entries.map Prod.fst).Nodup) (hdst : fs.lookup dst = none) :
    ((fs.rename src dst).entries.map Prod.fst).Nodup := by
  have hkeys : (fs.rename src dst).entries.map Prod.fst =
      (fs.entries.map Prod.fst).map (fun p => if p = src then dst else p) :=
    keys_rename fs.entries src dst
  rw [hkeys]
  have hdstmem : dst ∉ fs.entries.map Prod.fst := by
    intro hmem
    rcases List.mem_map.mp hmem with ⟨e, he, hef⟩
    exact lookupE_none_forall hdst e he hef
  refine List.Nodup.map_on ?_ hnd
  intro x hx y hy hxy
  by_cases hxs : x = src <;> by_cases hys : y = src
  · rw [hxs, hys]
  · rw [if_pos hxs, if_neg hys] at hxy
    exact absurd (hxy ▸ hy) hdstmem
  · rw [if_neg hxs, if_pos hys] at hxy
    exact absurd (hxy ▸ hx) hdstmem
  · rwa [if_neg hxs, if_neg hys] at hxy

/-! ## Derived facts about the filesystem predicates -/

theorem pathExists_false_iff {fs : FS} {p : FPath} :
    fs.pathExists p = false ↔ fs.lookup p = none := by
  unfold FS.pathExists
  cases fs.lookup p <;> simp

theorem isFileAt_iff {fs : FS} {p : FPath} :
    fs.isFileAt p = true ↔ ∃ c, fs.lookup p = some (.file c) := by
  unfold FS.isFileAt
  cases h : fs.lookup p with
  | none => simp
  | some n => cases n <;> simp

theorem pathExists_of_isFileAt {fs : FS} {p : FPath}
    (h : fs.isFileAt p = true) : fs.pathExists p = true := by
  rcases isFileAt_iff.mp h with ⟨c, hc⟩
  unfold FS.pathExists
  rw [hc]
  rfl

theorem src_ne_dst {fs : FS} {src dst : FPath}
    (hsrc : fs.isFileAt src = true) (hdst : fs.pathExists dst = false) :
    src ≠ dst := by
  intro h
  rw [h] at hsrc
  rw [pathExists_of_isFileAt hsrc] at hdst
  cases hdst

theorem isDirAt_rename_of_move {fs : FS} {src dst : FPath}
    (hsrc : fs.isFileAt src = true) (hdst : fs.pathExists dst = false)
    (q : FPath) : (fs.rename src dst).isDirAt q = fs.isDirAt q := by
  have hne : src ≠ dst := src_ne_dst hsrc hdst
  by_cases hqs : q = src
  · subst hqs
    unfold FS.isDirAt
    rw [lookup_rename_src fs hne]
    rcases isFileAt_iff.mp hsrc with ⟨c, hc⟩
    rw [hc]
  · by_cases hqd : q = dst
    · subst hqd
      unfold FS.isDirAt
      rw [lookup_rename_dst fs (pathExists_false_iff.mp hdst)]
      rcases isFileAt_iff.mp hsrc with ⟨c, hc⟩
      rw [hc, pathExists_false_iff.mp hdst]
    · unfold FS.isDirAt
      rw [lookup_rename_of_ne fs hqs hqd]

theorem pathExists_rename_of_exists {fs : FS} {src dst q : FPath}
    (hq : fs.pathExists q = true) (hqs : q ≠ src)
    (hdst : fs.pathExists dst = false) :
    (fs.rename src dst).pathExists q = true := by
  have hqd : q ≠ dst := by
    intro h
    rw [h, hdst] at hq
    cases hq
  unfold FS.pathExists
  rw [lookup_rename_of_ne fs hqs hqd]
  exact hq

/-! ## Case lemmas for a single loop iteration of the relocator -/

theorem moveOne_skip {err : FPath → Bool} {pp : FPath} {st : MoveState}
    {f : FPath} (h : st.fs.pathExists (pp ++ [basename f]) = true) :
    moveOne err pp st f =
      { st with log := st.log ++ [.warnExists (pp ++ [basename f])] } := by
  unfold moveOne
  simp only [h, if_true]

theorem moveOne_move {err : FPath → Bool} {pp : FPath} {st : MoveState}
    {f : FPath} (h1 : st.fs.pathExists (pp ++ [basename f]) = false)
    (h2 : st.fs.isFileAt f = true) (h3 : err f = false) :
    moveOne err pp st f =
      ⟨st.fs.rename f (pp ++ [basename f]), st.movedCount + 1, st.log⟩ := by
  unfold moveOne
  simp only [h1, h2, h3, Bool.false_eq_true, if_false, Bool.not_false,
    Bool.and_true, if_true]

theorem moveOne_err {err : FPath → Bool} {pp : FPath} {st : MoveState}
    {f : FPath} (h1 : st.fs.pathExists (pp ++ [basename f]) = false)
    (h2 : st.fs.isFileAt f = false ∨ err f = true) :
    moveOne err pp st f = { st with log := st.log ++ [.errMove f] } := by
  unfold moveOne
  rcases h2 with h2 | h2 <;>
    simp only [h1, h2, Bool.false_eq_true, if_false, Bool.not_true,
      Bool.false_and, Bool.and_false]

/-- Every iteration either leaves the filesystem alone or performs the
guarded rename of its own candidate to its own top-level destination. -/
theorem moveOne_fs_cases (err : FPath → Bool) (pp : FPath) (st : MoveState)
    (f : FPath) :
    (moveOne err pp st f).fs = st.fs ∨
    ((moveOne err pp st f).fs = st.fs.rename f (pp ++ [basename f]) ∧
      st.fs.pathExists (pp ++ [basename f]) = false ∧
      st.fs.isFileAt f = true ∧ err f = false) := by
  by_cases h1 : st.fs.pathExists (pp ++ [basename f]) = true
  · rw [moveOne_skip h1]
    exact Or.inl rfl
  · have h1' : st.fs.pathExists (pp ++ [basename f]) = false := by
      cases hv : st.fs.pathExists (pp ++ [basename f]) with
      | false => rfl
      | true => exact absurd hv h1
    by_cases h2 : st.fs.isFileAt f = true
    · by_cases h3 : err f = true
      · rw [moveOne_err h1' (Or.inr h3)]
        exact Or.inl rfl
      · have h3' : err f = false := by
          cases hv : err f with
          | false => rfl
          | true => exact absurd hv h3
        rw [moveOne_move h1' h2 h3']
        exact Or.inr ⟨rfl, h1', h2, h3'⟩
    · have h2' : st.fs.isFileAt f = false := by
        cases hv : st.fs.isFileAt f with
        | false => rfl
        | true => exact absurd hv h2
      rw [moveOne_err h1' (Or.inl h2')]
      exact Or.inl rfl

theorem moveOne_log_extends (err : FPath → Bool) (pp : FPath) (st : MoveState)
    (f : FPath) : ∃ d, (moveOne err pp st f).log = st.log ++ d := by
  rcases moveOne_fs_cases err pp st f with h | h
  all_goals
    unfold moveOne
    by_cases h1 : st.fs.pathExists (pp ++ [basename f]) = true
  · exact ⟨[.warnExists (pp ++ [basename f])], by simp [h1]⟩
  · by_cases h2 : (st.fs.isFileAt f && !err f) = true
    · exact ⟨[], by simp [h1, h2]⟩
    · exact ⟨[.errMove f], by simp [h1, h2]⟩
  · exact ⟨[.warnExists (pp ++ [basename f])], by simp [h1]⟩
  · by_cases h2 : (st.fs.isFileAt f && !err f) = true
    · exact ⟨[], by simp [h1, h2]⟩
    · exact ⟨[.errMove f], by simp [h1, h2]⟩

/-! ## Fold machinery for the relocator loop -/

theorem foldl_moveOne_inv (err : FPath → Bool) (pp : FPath)
    {I : MoveState → Prop} :
    ∀ (C : List FPath) (st : MoveState), I st →
      (∀ st' g, g ∈ C → I st' → I (moveOne err pp st' g)) →
      I (C.foldl (moveOne err pp) st)
  | [], _, h, _ => h
  | g :: rest, st, h, hstep => by
    rw [List.foldl_cons]
    exact foldl_moveOne_inv err pp rest (moveOne err pp st g)
      (hstep st g (by simp) h)
      (fun st' g' hg' => hstep st' g' (List.mem_cons_of_mem _ hg'))

theorem moveOne_fc (err : FPath → Bool) (pp : FPath) (st : MoveState)
    (f : FPath) :
    ((moveOne err pp st f).fs, (moveOne err pp st f).movedCount) =
      stepFC err pp (st.fs, st.movedCount) f := by
  unfold moveOne stepFC
  by_cases h1 : st.fs.pathExists (pp ++ [basename f]) = true
  · simp [h1]
  · by_cases h2 : (st.fs.isFileAt f && !err f) = true
    · simp [h1, h2]
    · simp [h1, h2]

theorem foldl_moveOne_fc (err : FPath → Bool) (pp : FPath) :
    ∀ (C : List FPath) (st : MoveState),
    ((C.foldl (moveOne err pp) st).fs,
      (C.foldl (moveOne err pp) st).movedCount) =
      C.foldl (stepFC err pp) (st.fs, st.movedCount)
  | [], st => rfl
  | g :: rest, st => by
    rw [List.foldl_cons, List.foldl_cons, ← moveOne_fc err pp st g]
    exact foldl_moveOne_fc err pp rest (moveOne err pp st g)

theorem foldl_moveOne_log_extends (err : FPath → Bool) (pp : FPath) :
    ∀ (C : List FPath) (st : MoveState),
      ∃ d, (C.foldl (moveOne err pp) st).log = st.log ++ d
  | [], st => ⟨[], by simp⟩
  | g :: rest, st => by
    rw [List.foldl_cons]
    rcases foldl_moveOne_log_extends err pp rest (moveOne err pp st g)
      with ⟨d2, hd2⟩
    rcases moveOne_log_extends err pp st g with ⟨d1, hd1⟩
    exact ⟨d1 ++ d2, by rw [hd2, hd1, List.append_assoc]⟩

theorem foldl_moveOne_log_mem (err : FPath → Bool) (pp : FPath)
    (C : List FPath) (st : MoveState) {m : LogMsg} (h : m ∈ st.log) :
    m ∈ (C.foldl (moveOne err pp) st).log := by
  rcases foldl_moveOne_log_extends err pp C st with ⟨d, hd⟩
  rw [hd]
  exact List.mem_append_left _ h

/-- Each iteration produces exactly one outcome: the moved counter plus
the warning and error message counters grow by exactly one per
candidate. -/
theorem foldl_moveOne_outcome_total (err : FPath → Bool) (pp : FPath) :
    ∀ (C : List FPath) (st : MoveState),
      (C.foldl (moveOne err pp) st).movedCount +
        countWarns (C.foldl (moveOne err pp) st).log +
        countErrs (C.foldl (moveOne err pp) st).log =
      st.movedCount + countWarns st.log + countErrs st.log + C.length
  | [], st => by simp
  | g :: rest, st => by
    rw [List.foldl_cons]
    have ih := foldl_moveOne_outcome_total err pp rest (moveOne err pp st g)
    rw [ih]
    have hstep : (moveOne err pp st g).movedCount +
        countWarns (moveOne err pp st g).log +
        countErrs (moveOne err pp st g).log =
        st.movedCount + countWarns st.log + countErrs st.log + 1 := by
      unfold moveOne
      by_cases h1 : st.fs.pathExists (pp ++ [basename g]) = true
      · simp [h1, countWarns, countErrs, List.countP_append]
        omega
      · by_cases h2 : (st.fs.isFileAt g && !err g) = true
        · simp [h1, h2, countWarns, countErrs]
          omega
        · simp [h1, h2, countWarns, countErrs, List.countP_append]
          omega
    rw [hstep]
    simp
    omega

/-- The moved counter computed by the loop agrees with the number of
`moved` outcomes in the specification-side outcome replay. -/
theorem movedCount_eq_outcomes (err : FPath → Bool) (pp : FPath) :
    ∀ (C : List FPath) (fs : FS) (c : Nat) (lg : List LogMsg),
      (C.foldl (moveOne err pp) ⟨fs, c, lg⟩).movedCount =
        c + (moveOutcomes err pp fs C).count .moved
  | [], fs, c, lg => by simp [moveOutcomes]
  | f :: rest, fs, c, lg => by
    rw [List.foldl_cons]
    unfold moveOutcomes
    by_cases h1 : fs.pathExists (pp ++ [basename f]) = true
    · rw [@moveOne_skip err pp ⟨fs, c, lg⟩ f h1]
      simp only [h1, if_true]
      rw [movedCount_eq_outcomes err pp rest fs c _]
      rw [List.count_cons]
      simp
    · have h1' : fs.pathExists (pp ++ [basename f]) = false := by
        cases hv : fs.pathExists (pp ++ [basename f]) with
        | false => rfl
        | true => exact absurd hv h1
      by_cases h2 : fs.isFileAt f = true
      · by_cases h3 : err f = true
        · rw [@moveOne_err err pp ⟨fs, c, lg⟩ f h1' (Or.inr h3)]
          simp only [h1', h2, h3, Bool.not_true, Bool.and_false,
            Bool.false_eq_true, if_false]
          rw [movedCount_eq_outcomes err pp rest fs c _]
          rw [List.count_cons]
          simp
        · have h3' : err f = false := by
            cases hv : err f with
            | false => rfl
            | true => exact absurd hv h3
          rw [@moveOne_move err pp ⟨fs, c, lg⟩ f h1' h2 h3']
          simp only [h1', h2, h3', Bool.not_false, Bool.and_true,
            Bool.false_eq_true, if_false, if_true]
          rw [movedCount_eq_outcomes err pp rest _ (c + 1) _]
          rw [List.count_cons]
          simp
          omega
      · have h2' : fs.isFileAt f = false := by
          cases hv : fs.isFileAt f with
          | false => rfl
          | true => exact absurd hv h2
        rw [@moveOne_err err pp ⟨fs, c, lg⟩ f h1' (Or.inl h2')]
        simp only [h1', h2', Bool.false_and, Bool.false_eq_true, if_false]
        rw [movedCount_eq_outcomes err pp rest fs c _]
        rw [List.count_cons]
        simp

/-! ## Characterizing the recursive walk -/

theorem isDirAt_iff {fs : FS} {p : FPath} :
    fs.isDirAt p = true ↔ fs.lookup p = some .dir := by
  unfold FS.isDirAt
  cases h : fs.lookup p with
  | none => simp
  | some n => cases n <;> simp

theorem mem_concatMap {f : α → List β} {b : β} :
    ∀ {l : List α}, b ∈ concatMap f l ↔ ∃ a ∈ l, b ∈ f a
  | [] => by simp [concatMap]
  | a :: as => by
    simp [concatMap, List.mem_append, mem_concatMap (l := as)]

theorem mem_childFiles {fs : FS} {d p : FPath} :
    p ∈ fs.childFiles d ↔
      ∃ n, (p, n) ∈ fs.entries ∧ n.isFile = true ∧ p ≠ [] ∧ p.dropLast = d := by
  unfold FS.childFiles
  rw [List.mem_filterMap]
  constructor
  · rintro ⟨e, he, hcond⟩
    by_cases hc : e.1 ≠ [] ∧ e.1.dropLast = d ∧ e.2.isFile = true
    · rw [if_pos hc] at hcond
      injection hcond with hep
      subst hep
      exact ⟨e.2, he, hc.2.2, hc.1, hc.2.1⟩
    · rw [if_neg hc] at hcond
      cases hcond
  · rintro ⟨n, hmem, hfile, hne, hdrop⟩
    refine ⟨(p, n), hmem, ?_⟩
    rw [if_pos ⟨hne, hdrop, hfile⟩]

theorem mem_dirsUnder {fs : FS} {pp q : FPath} :
    q ∈ fs.dirsUnder pp ↔
      (q, Node.dir) ∈ fs.entries ∧ properUnder pp q = true := by
  unfold FS.dirsUnder
  rw [List.mem_filterMap]
  constructor
  · rintro ⟨e, he, hcond⟩
    by_cases hc : e.2 = Node.dir ∧ properUnder pp e.1 = true
    · rw [if_pos hc] at hcond
      injection hcond with hep
      subst hep
      refine ⟨?_, hc.2⟩
      have : e = (e.1, Node.dir) := by
        rw [Prod.ext_iff]
        exact ⟨rfl, hc.1⟩
      rw [← this]
      exact he
    · rw [if_neg hc] at hcond
      cases hcond
  · rintro ⟨hmem, hu⟩
    exact ⟨(q, Node.dir), hmem, by rw [if_pos ⟨rfl, hu⟩]⟩

theorem mem_listdir {fs : FS} {d : FPath} {x : String} :
    x ∈ fs.listdir d ↔
      ∃ p n, (p, n) ∈ fs.entries ∧ p ≠ [] ∧ p.dropLast = d ∧ basename p = x := by
  unfold FS.listdir
  rw [List.mem_filterMap]
  constructor
  · rintro ⟨e, he, hcond⟩
    by_cases hc : e.1 ≠ [] ∧ e.1.dropLast = d
    · rw [if_pos hc] at hcond
      injection hcond with hxe
      exact ⟨e.1, e.2, he, hc.1, hc.2, hxe⟩
    · rw [if_neg hc] at hcond
      cases hcond
  · rintro ⟨p, n, hmem, hne, hdrop, hbase⟩
    exact ⟨(p, n), hmem, by rw [if_pos ⟨hne, hdrop⟩, hbase]⟩

theorem dropLast_append_right (l : List String) :
    ∀ (s : List String), s ≠ [] → (l ++ s).dropLast = l ++ s.dropLast := by
  induction l with
  | nil => intro s _; rfl
  | cons a as ih =>
    intro s hs
    have hne : (as ++ s) ≠ [] := by
      simp [hs]
    rw [List.cons_append, List.dropLast_cons_of_ne_nil hne, ih s hs,
      List.cons_append]

/-- Shape facts about any walk output: strictly inside the subtree,
name matches, and backed by a file entry. -/
theorem mem_list_dcm_files_shape {fs : FS} {pp p : FPath} {ext : String}
    (h : p ∈ list_dcm_files fs pp ext) :
    properUnder pp p = true ∧ pyEndswith (basename p) ext = true ∧
      ∃ n, (p, n) ∈ fs.entries ∧ n.isFile = true := by
  unfold list_dcm_files at h
  rcases mem_concatMap.mp h with ⟨root, hroot, hp⟩
  rcases List.mem_filter.mp hp with ⟨hcf, hext⟩
  rcases mem_childFiles.mp hcf with ⟨n, hmem, hfile, hne, hdrop⟩
  have hshape : p = root ++ [basename p] := by
    rw [← hdrop]
    exact (dropLast_concat_self p hne).symm
  rcases List.mem_cons.mp hroot with hr | hr
  · subst hr
    refine ⟨?_, hext, n, hmem, hfile⟩
    rw [hshape]
    exact properUnder_self_concat root (basename p)
  · rcases mem_dirsUnder.mp hr with ⟨_, hu⟩
    refine ⟨?_, hext, n, hmem, hfile⟩
    rw [hshape]
    exact properUnder_concat _ hu

/-- Forward half of the walk characterization (distinct keys needed so
the entry backing the walk is the one `lookup` finds). -/
theorem mem_list_dcm_files_forward {fs : FS} {pp p : FPath} {ext : String}
    (hnd : (fs.entries.map Prod.fst).Nodup)
    (h : p ∈ list_dcm_files fs pp ext) :
    fs.isFileAt p = true ∧ properUnder pp p = true ∧
      pyEndswith (basename p) ext = true := by
  rcases mem_list_dcm_files_shape h with ⟨hu, hext, n, hmem, hfile⟩
  refine ⟨?_, hu, hext⟩
  have hl : fs.lookup p = some n := mem_lookupE hnd hmem
  cases n with
  | file c =>
    rw [isFileAt_iff]
    exact ⟨c, hl⟩
  | dir => cases hfile

/-- Backward half of the walk characterization: in a well-formed tree
the walk reaches every matching file (its parent chain consists of
directory entries, so `os.walk` recursion visits the parent). -/
theorem mem_list_dcm_files_backward {fs : FS} {pp p : FPath} {ext : String}
    (hwf : fs.Wf) (hf : fs.isFileAt p = true) (hu : properUnder pp p = true)
    (he : pyEndswith (basename p) ext = true) :
    p ∈ list_dcm_files fs pp ext := by
  rcases isFileAt_iff.mp hf with ⟨c, hc⟩
  have hmem : (p, Node.file c) ∈ fs.entries := lookupE_mem hc
  have hpne : p ≠ [] := by
    intro hnil
    have := properUnder_length hu
    rw [hnil] at this
    simp at this
  have hchild : p ∈ fs.childFiles p.dropLast :=
    mem_childFiles.mpr ⟨Node.file c, hmem, rfl, hpne, rfl⟩
  have hfilter : p ∈ (fs.childFiles p.dropLast).filter
      (fun f => pyEndswith (basename f) ext) :=
    List.mem_filter.mpr ⟨hchild, he⟩
  unfold list_dcm_files
  rw [mem_concatMap]
  by_cases hpar : p.dropLast = pp
  · exact ⟨pp, by simp, hpar ▸ hfilter⟩
  · refine ⟨p.dropLast, ?_, hfilter⟩
    rcases properUnder_iff.mp hu with ⟨s, hsne, rfl⟩
    have hdl : (pp ++ s).dropLast = pp ++ s.dropLast :=
      dropLast_append_right pp s hsne
    have hsdl : s.dropLast ≠ [] := by
      intro hnil
      rw [hdl, hnil, List.append_nil] at hpar
      exact hpar rfl
    have hparu : properUnder pp ((pp ++ s).dropLast) = true := by
      rw [hdl]
      exact properUnder_iff.mpr ⟨s.dropLast, hsdl, rfl⟩
    have hinit : (pp ++ s).dropLast ∈ (pp ++ s).inits := by
      rw [List.mem_inits]
      exact ⟨[basename (pp ++ s)], dropLast_concat_self _ hpne⟩
    have hlen : ((pp ++ s).dropLast).length < (pp ++ s).length := by
      rw [List.length_dropLast]
      have : 0 < (pp ++ s).length := List.length_pos.mpr hpne
      omega
    have hnp : (pp ++ s).dropLast ≠ pp ++ s := by
      intro hx
      rw [hx] at hlen
      omega
    have hne2 : (pp ++ s).dropLast ≠ [] := by
      intro hnil
      have := properUnder_length hparu
      rw [hnil] at this
      simp at this
    have hdir : fs.isDirAt ((pp ++ s).dropLast) = true :=
      hwf.2.2 (pp ++ s, Node.file c) hmem _ hinit hne2 hnp
    have hdmem : ((pp ++ s).dropLast, Node.dir) ∈ fs.entries :=
      lookupE_mem (isDirAt_iff.mp hdir)
    right
    exact mem_dirsUnder.mpr ⟨hdmem, hparu⟩

/-- Full walk characterization over a well-formed filesystem. -/
theorem list_dcm_files_mem_iff {fs : FS} {pp p : FPath} {ext : String}
    (hwf : fs.Wf) :
    p ∈ list_dcm_files fs pp ext ↔
      fs.isFileAt p = true ∧ properUnder pp p = true ∧
        pyEndswith (basename p) ext = true := by
  constructor
  · exact mem_list_dcm_files_forward hwf.1
  · rintro ⟨h1, h2, h3⟩
    exact mem_list_dcm_files_backward hwf h1 h2 h3

/-! ## Preservation lemmas along the relocator loop -/

theorem isFileAt_eq_of_lookup_eq {fs1 fs2 : FS} {f : FPath}
    (h : fs1.lookup f = fs2.lookup f) : fs1.isFileAt f = fs2.isFileAt f := by
  unfold FS.isFileAt
  rw [h]

theorem pathExists_eq_of_lookup_eq {fs1 fs2 : FS} {f : FPath}
    (h : fs1.lookup f = fs2.lookup f) : fs1.pathExists f = fs2.pathExists f := by
  unfold FS.pathExists
  rw [h]

theorem moveOne_preserves_isDirAt (err : FPath → Bool) (pp : FPath)
    (st : MoveState) (f q : FPath) :
    (moveOne err pp st f).fs.isDirAt q = st.fs.isDirAt q := by
  rcases moveOne_fs_cases err pp st f with h | ⟨h, h1, h2, _⟩
  · rw [h]
  · rw [h]
    exact isDirAt_rename_of_move h2 h1 q

theorem foldl_preserves_isDirAt (err : FPath → Bool) (pp : FPath) :
    ∀ (C : List FPath) (st : MoveState) (q : FPath),
      (C.foldl (moveOne err pp) st).fs.isDirAt q = st.fs.isDirAt q
  | [], _, _ => rfl
  | g :: rest, st, q => by
    rw [List.foldl_cons, foldl_preserves_isDirAt err pp rest _ q,
      moveOne_preserves_isDirAt err pp st g q]

theorem moveOne_preserves_top (err : FPath → Bool) (pp : FPath)
    (st : MoveState) (f : FPath) (x : String)
    (h : st.fs.pathExists (pp ++ [x]) = true) :
    (moveOne err pp st f).fs.pathExists (pp ++ [x]) = true := by
  rcases moveOne_fs_cases err pp st f with h' | ⟨h', h1, _, _⟩
  · rw [h']
    exact h
  · rw [h']
    refine pathExists_rename_of_exists h ?_ h1
    intro hqf
    rw [← hqf, basename_concat] at h1
    rw [h] at h1
    cases h1

theorem foldl_preserves_top (err : FPath → Bool) (pp : FPath)
    (C : List FPath) (st : MoveState) (x : String)
    (h : st.fs.pathExists (pp ++ [x]) = true) :
    (C.foldl (moveOne err pp) st).fs.pathExists (pp ++ [x]) = true :=
  foldl_moveOne_inv err pp C st h
    (fun st' g _ hI => moveOne_preserves_top err pp st' g x hI)

theorem moveOne_DProp_self (err : FPath → Bool) (pp : FPath)
    (st : MoveState) (f : FPath) : DProp err pp (moveOne err pp st f) f := by
  unfold DProp
  by_cases h1 : st.fs.pathExists (pp ++ [basename f]) = true
  · rw [moveOne_skip h1]
    exact Or.inl h1
  · have h1' : st.fs.pathExists (pp ++ [basename f]) = false := by
      cases hv : st.fs.pathExists (pp ++ [basename f]) with
      | false => rfl
      | true => exact absurd hv h1
    by_cases h2 : st.fs.isFileAt f = true
    · by_cases h3 : err f = true
      · rw [moveOne_err h1' (Or.inr h3)]
        exact Or.inr (Or.inl h3)
      · have h3' : err f = false := by
          cases hv : err f with
          | false => rfl
          | true => exact absurd hv h3
        rw [moveOne_move h1' h2 h3']
        left
        show (st.fs.rename f (pp ++ [basename f])).pathExists
          (pp ++ [basename f]) = true
        unfold FS.pathExists
        rw [lookup_rename_dst st.fs (pathExists_false_iff.mp h1')]
        rcases isFileAt_iff.mp h2 with ⟨c, hc⟩
        rw [hc]
        rfl
    · have h2' : st.fs.isFileAt f = false := by
        cases hv : st.fs.isFileAt f with
        | false => rfl
        | true => exact absurd hv h2
      rw [moveOne_err h1' (Or.inl h2')]
      exact Or.inr (Or.inr h2')

theorem moveOne_DProp_preserved (err : FPath → Bool) (pp : FPath)
    (st : MoveState) (f g : FPath) (h : DProp err pp st f) :
    DProp err pp (moveOne err pp st g) f := by
  unfold DProp at h ⊢
  rcases h with h | h | h
  · exact Or.inl (moveOne_preserves_top err pp st g (basename f) h)
  · exact Or.inr (Or.inl h)
  · rcases moveOne_fs_cases err pp st g with h' | ⟨h', h1, h2, _⟩
    · rw [h']
      exact Or.inr (Or.inr h)
    · by_cases hfd : f = pp ++ [basename g]
      · left
        rw [h', hfd, basename_concat]
        show (st.fs.rename g (pp ++ [basename g])).pathExists
          (pp ++ [basename g]) = true
        unfold FS.pathExists
        rw [lookup_rename_dst st.fs (pathExists_false_iff.mp h1)]
        rcases isFileAt_iff.mp h2 with ⟨c, hc⟩
        rw [hc]
        rfl
      · have hfg : f ≠ g := by
          intro hx
          rw [hx, h2] at h
          cases h
        right
        right
        rw [h', isFileAt_eq_of_lookup_eq (lookup_rename_of_ne st.fs hfg hfd)]
        exact h

theorem foldl_DProp (err : FPath → Bool) (pp : FPath) :
    ∀ (C : List FPath) (st : MoveState) (f : FPath), f ∈ C →
      DProp err pp (C.foldl (moveOne err pp) st) f
  | [], _, _, h => absurd h (List.not_mem_nil _)
  | g :: rest, st, f, h => by
    rw [List.foldl_cons]
    rcases List.mem_cons.mp h with h1 | h2
    · subst h1
      exact foldl_moveOne_inv err pp rest _ (moveOne_DProp_self err pp st f)
        (fun st' g' _ hI => moveOne_DProp_preserved err pp st' f g' hI)
    · exact foldl_DProp err pp rest _ f h2

theorem moveOne_isFileAt_new (err : FPath → Bool) (pp : FPath)
    (st : MoveState) (f q : FPath)
    (h : (moveOne err pp st f).fs.isFileAt q = true) :
    st.fs.isFileAt q = true ∨ ∃ x, q = pp ++ [x] := by
  rcases moveOne_fs_cases err pp st f with h' | ⟨h', h1, h2, _⟩
  · rw [h'] at h
    exact Or.inl h
  · by_cases hqd : q = pp ++ [basename f]
    · exact Or.inr ⟨basename f, hqd⟩
    · by_cases hqs : q = f
      · subst hqs
        rw [h'] at h
        unfold FS.isFileAt at h
        rw [lookup_rename_src st.fs (src_ne_dst h2 h1)] at h
        cases h
      · rw [h', isFileAt_eq_of_lookup_eq (lookup_rename_of_ne st.fs hqs hqd)] at h
        exact Or.inl h

theorem foldl_isFileAt_new (err : FPath → Bool) (pp : FPath) :
    ∀ (C : List FPath) (st : MoveState) (q : FPath),
      (C.foldl (moveOne err pp) st).fs.isFileAt q = true →
      st.fs.isFileAt q = true ∨ ∃ x, q = pp ++ [x]
  | [], _, _, h => Or.inl h
  | g :: rest, st, q, h => by
    rw [List.foldl_cons] at h
    rcases foldl_isFileAt_new err pp rest _ q h with h1 | h2
    · exact moveOne_isFileAt_new err pp st g q h1
    · exact Or.inr h2

theorem moveOne_preserves_nodup (err : FPath → Bool) (pp : FPath)
    (st : MoveState) (f : FPath)
    (h : (st.fs.entries.map Prod.fst).Nodup) :
    ((moveOne err pp st f).fs.entries.map Prod.fst).Nodup := by
  rcases moveOne_fs_cases err pp st f with h' | ⟨h', h1, _, _⟩
  · rw [h']
    exact h
  · rw [h']
    exact nodup_keys_rename st.fs h (pathExists_false_iff.mp h1)

theorem foldl_preserves_nodup (err : FPath → Bool) (pp : FPath)
    (C : List FPath) (st : MoveState)
    (h : (st.fs.entries.map Prod.fst).Nodup) :
    (((C.foldl (moveOne err pp) st).fs.entries.map Prod.fst)).Nodup :=
  foldl_moveOne_inv err pp C st h
    (fun st' g _ hI => moveOne_preserves_nodup err pp st' g hI)

/-! ## Claim theorems -/

/-- C2: whenever a candidate's destination (target directory joined with
the candidate's basename) already exists — including the case where the
candidate already sits in the target directory, so source and
destination coincide — the iteration only logs a warning: the
filesystem is unchanged (both the candidate's path and the existing
destination keep their exact contents), no move or self-move happens,
and the moved counter does not change. -/
theorem relocator_skips_existing_destination (err : FPath → Bool)
    (pp : FPath) (st : MoveState) (f : FPath)
    (h : st.fs.pathExists (pp ++ [basename f]) = true) :
    moveOne err pp st f =
      { st with log := st.log ++ [.warnExists (pp ++ [basename f])] } ∧
    (moveOne err pp st f).fs = st.fs ∧
    (moveOne err pp st f).movedCount = st.movedCount ∧
    (moveOne err pp st f).fs.lookup f = st.fs.lookup f ∧
    (moveOne err pp st f).fs.lookup (pp ++ [basename f]) =
      st.fs.lookup (pp ++ [basename f]) := by
  have hm := @moveOne_skip err pp st f h
  refine ⟨hm, ?_, ?_, ?_, ?_⟩ <;> rw [hm]

/-- Witness for C2 at a concrete state, exercising exactly the
source-equals-destination case: the file is already at top level. -/
theorem relocator_skips_existing_destination_witness :
    (⟨fsA, 0, []⟩ : MoveState).fs.pathExists
      (["d","p"] ++ [basename ["d","p","b.dcm"]]) = true ∧
    moveOne (fun _ => false) ["d","p"] ⟨fsA, 0, []⟩ ["d","p","b.dcm"] =
      { (⟨fsA, 0, []⟩ : MoveState) with
        log := [] ++ [.warnExists (["d","p"] ++ [basename ["d","p","b.dcm"]])] } :=
  ⟨by decide,
    (relocator_skips_existing_destination (fun _ => false) ["d","p"]
      ⟨fsA, 0, []⟩ ["d","p","b.dcm"] (by decide)).1⟩

/-- C4: the relocator's return value counts exactly the `moved`
outcomes of the specification-side per-candidate replay (skips and
failures excluded); and a candidate whose destination is free and whose
move succeeds ends up absent from its original path and present at the
destination with identical content, with the counter incremented. -/
theorem relocator_count_and_content (err : FPath → Bool) (pp : FPath)
    (C : List FPath) (fs : FS) (st : MoveState) (f : FPath) (c : Nat)
    (h1 : st.fs.pathExists (pp ++ [basename f]) = false)
    (h2 : st.fs.lookup f = some (.file c)) (h3 : err f = false) :
    (move_dcm_files err C pp fs).movedCount =
      (moveOutcomes err pp fs C).count .moved ∧
    (moveOne err pp st f).movedCount = st.movedCount + 1 ∧
    (moveOne err pp st f).fs.lookup f = none ∧
    (moveOne err pp st f).fs.lookup (pp ++ [basename f]) =
      some (.file c) := by
  have hfile : st.fs.isFileAt f = true := isFileAt_iff.mpr ⟨c, h2⟩
  have hm := moveOne_move h1 hfile h3
  have hnd : f ≠ pp ++ [basename f] := src_ne_dst hfile h1
  refine ⟨?_, ?_, ?_, ?_⟩
  · unfold move_dcm_files
    rw [movedCount_eq_outcomes err pp C fs 0 []]
    simp
  · rw [hm]
  · rw [hm]
    exact lookup_rename_src st.fs hnd
  · rw [hm]
    rw [lookup_rename_dst st.fs (pathExists_false_iff.mp h1)]
    exact h2

/-- Witness for C4: moving the nested candidate of the fixture. -/
theorem relocator_count_and_content_witness :
    (⟨fsA, 0, []⟩ : MoveState).fs.pathExists
      (["d","p"] ++ [basename ["d","p","s","a.dcm"]]) = false ∧
    (⟨fsA, 0, []⟩ : MoveState).fs.lookup ["d","p","s","a.dcm"] =
      some (.file 5) ∧
    ((move_dcm_files (fun _ => false) (list_dcm_files fsA ["d","p"] ".dcm")
        ["d","p"] fsA).movedCount =
      (moveOutcomes (fun _ => false) ["d","p"] fsA
        (list_dcm_files fsA ["d","p"] ".dcm")).count .moved ∧
    (moveOne (fun _ => false) ["d","p"] ⟨fsA, 0, []⟩
        ["d","p","s","a.dcm"]).movedCount = 0 + 1 ∧
    (moveOne (fun _ => false) ["d","p"] ⟨fsA, 0, []⟩
        ["d","p","s","a.dcm"]).fs.lookup ["d","p","s","a.dcm"] = none ∧
    (moveOne (fun _ => false) ["d","p"] ⟨fsA, 0, []⟩
        ["d","p","s","a.dcm"]).fs.lookup
      (["d","p"] ++ [basename ["d","p","s","a.dcm"]]) = some (.file 5)) :=
  ⟨by decide, by decide,
    relocator_count_and_content (fun _ => false) ["d","p"]
      (list_dcm_files fsA ["d","p"] ".dcm") fsA ⟨fsA, 0, []⟩
      ["d","p","s","a.dcm"] 5 (by decide) (by decide) rfl⟩

/-- C5: over a well-formed tree the finder returns exactly the files,
at any depth strictly inside the patient directory, whose name ends
with the extension string as a case-sensitive character-level suffix
(not a whole-segment match); in particular "foo.dcm" and "foo.old.dcm"
both match ".dcm", while the uppercase extension ".DCM" matches no file
named "x.dcm". -/
theorem finder_suffix_semantics (fs : FS) (pp : FPath) (ext : String)
    (hwf : fs.Wf) :
    (∀ p, p ∈ list_dcm_files fs pp ext ↔
      fs.isFileAt p = true ∧ properUnder pp p = true ∧
        pyEndswith (basename p) ext = true) ∧
    (∀ s suf : String, pyEndswith s suf = true ↔
      ∃ pre, s.data = pre ++ suf.data) ∧
    pyEndswith "foo.dcm" ".dcm" = true ∧
    pyEndswith "foo.old.dcm" ".dcm" = true ∧
    pyEndswith "x.dcm" ".DCM" = false ∧
    list_dcm_files fsC ["d","p"] ".DCM" = [] ∧
    list_dcm_files fsC ["d","p"] ".dcm" = [["d","p","x.dcm"]] := by
  refine ⟨fun p => list_dcm_files_mem_iff hwf, pyEndswith_iff, ?_, ?_, ?_, ?_, ?_⟩
  · decide
  · decide
  · decide
  · decide
  · decide

/-- Witness for C5, instantiating the characterization at the concrete
fixture and its single matching file. -/
theorem finder_suffix_semantics_witness :
    fsC.Wf ∧
    (["d","p","x.dcm"] ∈ list_dcm_files fsC ["d","p"] ".dcm" ↔
      fsC.isFileAt ["d","p","x.dcm"] = true ∧
      properUnder ["d","p"] ["d","p","x.dcm"] = true ∧
      pyEndswith (basename ["d","p","x.dcm"]) ".dcm" = true) :=
  ⟨by decide,
    (finder_suffix_semantics fsC ["d","p"] ".dcm" (by decide)).1
      ["d","p","x.dcm"]⟩

/-- C6: a candidate whose move fails (oracle failure at its processing
time, destination free so the move is actually attempted) is logged
with an error naming the file, and the batch continues: the final
filesystem and moved count are exactly those of the same batch with the
failing candidate removed, so sibling candidates are unaffected and
nothing escapes the relocator. -/
theorem move_failure_isolated (err : FPath → Bool) (pp : FPath) (fs : FS)
    (C0 C1 : List FPath) (f : FPath) (herr : err f = true)
    (hne : (move_dcm_files err C0 pp fs).fs.pathExists
      (pp ++ [basename f]) = false) :
    (move_dcm_files err (C0 ++ f :: C1) pp fs).fs =
      (move_dcm_files err (C0 ++ C1) pp fs).fs ∧
    (move_dcm_files err (C0 ++ f :: C1) pp fs).movedCount =
      (move_dcm_files err (C0 ++ C1) pp fs).movedCount ∧
    LogMsg.errMove f ∈ (move_dcm_files err (C0 ++ f :: C1) pp fs).log := by
  unfold move_dcm_files at *
  rw [List.foldl_append, List.foldl_append, List.foldl_cons]
  set st0 := C0.foldl (moveOne err pp) ⟨fs, 0, []⟩ with hst0
  have hm : moveOne err pp st0 f = { st0 with log := st0.log ++ [.errMove f] } :=
    moveOne_err hne (Or.inr herr)
  have hpair1 := foldl_moveOne_fc err pp C1 (moveOne err pp st0 f)
  have hpair2 := foldl_moveOne_fc err pp C1 st0
  have heq : ((moveOne err pp st0 f).fs, (moveOne err pp st0 f).movedCount) =
      (st0.fs, st0.movedCount) := by
    rw [hm]
  rw [heq] at hpair1
  have hsame := hpair1.trans hpair2.symm
  refine ⟨congrArg Prod.fst hsame, congrArg Prod.snd hsame, ?_⟩
  apply foldl_moveOne_log_mem
  rw [hm]
  simp

/-- Witness for C6: the only candidate's move fails under an
always-failing oracle; the run completes with zero moved and the error
logged. -/
theorem move_failure_isolated_witness :
    (fun _ : FPath => true) ["d","p","s","a.dcm"] = true ∧
    (move_dcm_files (fun _ => true) [] ["d","p"] fsA).fs.pathExists
      (["d","p"] ++ [basename ["d","p","s","a.dcm"]]) = false ∧
    ((move_dcm_files (fun _ => true)
        ([] ++ ["d","p","s","a.dcm"] :: [["d","p","b.dcm"]]) ["d","p"] fsA).fs =
      (move_dcm_files (fun _ => true) ([] ++ [["d","p","b.dcm"]])
        ["d","p"] fsA).fs ∧
    (move_dcm_files (fun _ => true)
        ([] ++ ["d","p","s","a.dcm"] :: [["d","p","b.dcm"]]) ["d","p"]
        fsA).movedCount =
      (move_dcm_files (fun _ => true) ([] ++ [["d","p","b.dcm"]])
        ["d","p"] fsA).movedCount ∧
    LogMsg.errMove ["d","p","s","a.dcm"] ∈
      (move_dcm_files (fun _ => true)
        ([] ++ ["d","p","s","a.dcm"] :: [["d","p","b.dcm"]]) ["d","p"]
        fsA).log) :=
  ⟨rfl, by decide,
    move_failure_isolated (fun _ => true) ["d","p"] fsA []
      [["d","p","b.dcm"]] ["d","p","s","a.dcm"] rfl (by decide)⟩

theorem process_eq_of_nonempty (err rerr : FPath → Bool) (fs : FS)
    (disk : FPath) (p : String) (ext : String)
    (hne : (list_dcm_files fs (disk ++ [p]) ext).isEmpty = false)
    (hok : (rerr (disk ++ [p]) ||
      !((move_dcm_files err (list_dcm_files fs (disk ++ [p]) ext)
          (disk ++ [p]) fs).fs.isDirAt (disk ++ [p]))) = false) :
    process_patient_directory err rerr fs disk p ext =
      some ((move_dcm_files err (list_dcm_files fs (disk ++ [p]) ext)
              (disk ++ [p]) fs).movedCount,
            (move_dcm_files err (list_dcm_files fs (disk ++ [p]) ext)
              (disk ++ [p]) fs).fs,
            [.infoBefore p (list_dcm_files fs (disk ++ [p]) ext).length] ++
              (move_dcm_files err (list_dcm_files fs (disk ++ [p]) ext)
                (disk ++ [p]) fs).log ++
            [.infoAfter p (((move_dcm_files err
                (list_dcm_files fs (disk ++ [p]) ext) (disk ++ [p]) fs).fs.listdir
                  (disk ++ [p])).filter
                (fun name => pyEndswith name ext)).length,
             .infoMoved p (move_dcm_files err
                (list_dcm_files fs (disk ++ [p]) ext) (disk ++ [p])
                fs).movedCount]) := by
  simp only [process_patient_directory, hne, Bool.false_eq_true, if_false, hok,
    List.append_assoc, List.cons_append, List.nil_append]

theorem isEmpty_false_of_ne_nil {l : List FPath} (h : l ≠ []) :
    l.isEmpty = false := by
  cases l with
  | nil => exact absurd rfl h
  | cons a as => rfl

/-- C1: with a non-empty candidate set, the processor's result is
exactly the relocation of the snapshot `list_dcm_files fs pp ext`
computed on the pre-mutation filesystem `fs` — the walk is fully
materialized before any move — and the relocation consumes exactly that
fixed list: one outcome (move, skip-warning or error) per snapshot
element, the three counters summing to the snapshot length, so no
candidate is discovered or re-discovered after the first move. -/
theorem processor_materializes_before_moving (err rerr : FPath → Bool)
    (fs : FS) (disk : FPath) (p : String) (ext : String)
    (hne : list_dcm_files fs (disk ++ [p]) ext ≠ [])
    (hrerr : rerr (disk ++ [p]) = false)
    (hdir : fs.isDirAt (disk ++ [p]) = true) :
    (∃ lg, process_patient_directory err rerr fs disk p ext =
      some ((move_dcm_files err (list_dcm_files fs (disk ++ [p]) ext)
              (disk ++ [p]) fs).movedCount,
            (move_dcm_files err (list_dcm_files fs (disk ++ [p]) ext)
              (disk ++ [p]) fs).fs, lg)) ∧
    (move_dcm_files err (list_dcm_files fs (disk ++ [p]) ext)
        (disk ++ [p]) fs).movedCount +
      countWarns (move_dcm_files err (list_dcm_files fs (disk ++ [p]) ext)
        (disk ++ [p]) fs).log +
      countErrs (move_dcm_files err (list_dcm_files fs (disk ++ [p]) ext)
        (disk ++ [p]) fs).log =
      (list_dcm_files fs (disk ++ [p]) ext).length := by
  have hdir2 : (move_dcm_files err (list_dcm_files fs (disk ++ [p]) ext)
      (disk ++ [p]) fs).fs.isDirAt (disk ++ [p]) = true := by
    unfold move_dcm_files
    rw [foldl_preserves_isDirAt]
    exact hdir
  have hok : (rerr (disk ++ [p]) ||
      !((move_dcm_files err (list_dcm_files fs (disk ++ [p]) ext)
          (disk ++ [p]) fs).fs.isDirAt (disk ++ [p]))) = false := by
    rw [hrerr, hdir2]
    rfl
  constructor
  · exact ⟨_, process_eq_of_nonempty err rerr fs disk p ext
      (isEmpty_false_of_ne_nil hne) hok⟩
  · unfold move_dcm_files
    have := foldl_moveOne_outcome_total err (disk ++ [p])
      (list_dcm_files fs (disk ++ [p]) ext) ⟨fs, 0, []⟩
    simpa [countWarns, countErrs] using this

/-- Witness for C1 on the concrete fixture. -/
theorem processor_materializes_before_moving_witness :
    list_dcm_files fsA (["d"] ++ ["p"]) ".dcm" ≠ [] ∧
    fsA.isDirAt (["d"] ++ ["p"]) = true ∧
    ((∃ lg, process_patient_directory (fun _ => false) (fun _ => false)
        fsA ["d"] "p" ".dcm" =
      some ((move_dcm_files (fun _ => false)
              (list_dcm_files fsA (["d"] ++ ["p"]) ".dcm")
              (["d"] ++ ["p"]) fsA).movedCount,
            (move_dcm_files (fun _ => false)
              (list_dcm_files fsA (["d"] ++ ["p"]) ".dcm")
              (["d"] ++ ["p"]) fsA).fs, lg)) ∧
    (move_dcm_files (fun _ => false)
        (list_dcm_files fsA (["d"] ++ ["p"]) ".dcm")
        (["d"] ++ ["p"]) fsA).movedCount +
      countWarns (move_dcm_files (fun _ => false)
        (list_dcm_files fsA (["d"] ++ ["p"]) ".dcm")
        (["d"] ++ ["p"]) fsA).log +
      countErrs (move_dcm_files (fun _ => false)
        (list_dcm_files fsA (["d"] ++ ["p"]) ".dcm")
        (["d"] ++ ["p"]) fsA).log =
      (list_dcm_files fsA (["d"] ++ ["p"]) ".dcm").length) :=
  ⟨by decide, by decide,
    processor_materializes_before_moving (fun _ => false) (fun _ => false)
      fsA ["d"] "p" ".dcm" (by decide) rfl (by decide)⟩
theorem recount_split (d : FPath) (ext : String) :
    ∀ (l : List (FPath × Node)),
      (((FS.mk l).listdir d).filter (fun n => pyEndswith n ext)).length =
        matchingFilesDirectCount (FS.mk l) d ext +
        matchingNonFilesDirectCount (FS.mk l) d ext
  | [] => rfl
  | e :: rest => by
    have ih := recount_split d ext rest
    unfold matchingFilesDirectCount matchingNonFilesDirectCount
      FS.listdir FS.childFiles at ih ⊢
    simp only [List.filterMap_cons]
    by_cases hA : e.1 = []
    · simp [hA, ih]
    · by_cases hB : e.1.dropLast = d
      · by_cases h2 : e.2.isFile = true
        · by_cases h3 : pyEndswith (basename e.1) ext = true
          · simp [hA, hB, h2, h3, List.filter_cons, ih]
            omega
          · simp [hA, hB, h2, h3, List.filter_cons, ih]
        · have h2f : e.2.isFile = false := by
            cases hv : e.2.isFile with
            | false => rfl
            | true => exact absurd hv h2
          by_cases h3 : pyEndswith (basename e.1) ext = true
          · simp [hA, hB, h2f, h3, List.filter_cons, ih]
            omega
          · simp [hA, hB, h2f, h3, List.filter_cons, ih]
      · simp [hA, hB, ih]

/-- C3 counterexample: an enumeration failure at the post-move recount
(src/main.py:108-110, outside any try/except) is NOT recovered: the
patient's processing and the whole run abort with an uncaught
exception, modelled by `none` — so an error can be fatal to the
process, contradicting the claim at this concrete input. -/
theorem recount_failure_is_fatal :
    process_patient_directory (fun _ => false) (fun _ => true) fsA ["d"]
      "p" ".dcm" = none ∧
    runPipeline (fun _ => false) (fun _ => true) false fsA ["d"]
      ".dcm" = none := by
  constructor
  · decide
  · decide

/-- C3 amended: failures enumerating the root are caught, logged at
error severity and degrade to an empty listing, leaving the run to
complete with a total of zero; per-file move failures are caught,
logged naming the file, and the loop continues.  A failure enumerating
the patient directory during the post-move recount, however, is not
caught and aborts the run. -/
theorem error_recovery_scopes (err rerr : FPath → Bool) (fs : FS)
    (disk pp : FPath) (ext : String) (s : Bool) (st : MoveState) (f : FPath)
    (h1 : st.fs.pathExists (pp ++ [basename f]) = false)
    (h2 : st.fs.isFileAt f = false ∨ err f = true) :
    list_patient_directories fs disk true s = ([], [.errListDirs]) ∧
    runPipeline err rerr true fs disk ext = some (0, fs) ∧
    moveOne err pp st f = { st with log := st.log ++ [.errMove f] } := by
  refine ⟨?_, ?_, moveOne_err h1 h2⟩
  · unfold list_patient_directories
    simp
  · unfold runPipeline list_patient_directories
    simp

/-- Witness for the amended C3. -/
theorem error_recovery_scopes_witness :
    (⟨fsA, 0, []⟩ : MoveState).fs.pathExists
      (["d","p"] ++ [basename ["d","p","s","a.dcm"]]) = false ∧
    ((fun _ : FPath => true) ["d","p","s","a.dcm"] = true) ∧
    (list_patient_directories fsA ["d"] true true = ([], [.errListDirs]) ∧
    runPipeline (fun _ => true) (fun _ => false) true fsA ["d"] ".dcm" =
      some (0, fsA) ∧
    moveOne (fun _ => true) ["d","p"] ⟨fsA, 0, []⟩ ["d","p","s","a.dcm"] =
      { (⟨fsA, 0, []⟩ : MoveState) with
        log := [] ++ [.errMove ["d","p","s","a.dcm"]] }) :=
  ⟨by decide, rfl,
    error_recovery_scopes (fun _ => true) (fun _ => false) fsA ["d"]
      ["d","p"] ".dcm" true ⟨fsA, 0, []⟩ ["d","p","s","a.dcm"]
      (by decide) (Or.inr rfl)⟩

/-- C8 counterexample: the recount at src/main.py:108-110 applies
`endswith` to every `os.listdir` entry regardless of type, so a
subdirectory named "sub.dcm" is counted: the processor logs an
after-count of 2 although only 1 matching regular file sits directly in
the patient directory — the claim's "number of matching files" reading
is false at this input. -/
theorem recount_counts_nonfile_entries :
    process_patient_directory (fun _ => false) (fun _ => false) fsB ["d"]
      "p" ".dcm" =
      some (1, fsB',
        [.infoBefore "p" 1, .infoAfter "p" 2, .infoMoved "p" 1]) ∧
    matchingFilesDirectCount fsB' ["d","p"] ".dcm" = 1 ∧
    LogMsg.infoAfter "p" (matchingFilesDirectCount fsB' ["d","p"] ".dcm") ∉
      [LogMsg.infoBefore "p" 1, LogMsg.infoAfter "p" 2,
        LogMsg.infoMoved "p" 1] := by
  refine ⟨by decide, by decide, by decide⟩

/-- C8 amended: with a non-empty candidate set (and a recount that does
not fail), the processor reports as the post-move count exactly the
number of directory entries of any type — regular files and non-files
alike — directly (non-recursively) inside the patient directory whose
name matches the extension, obtained by re-scanning the directory after
the relocation step rather than by arithmetic on before/skipped/failed
counts. -/
theorem processor_recount_by_rescan (err rerr : FPath → Bool) (fs : FS)
    (disk : FPath) (p : String) (ext : String)
    (hne : list_dcm_files fs (disk ++ [p]) ext ≠ [])
    (hrerr : rerr (disk ++ [p]) = false)
    (hdir : fs.isDirAt (disk ++ [p]) = true) :
    ∃ lg, process_patient_directory err rerr fs disk p ext =
        some ((move_dcm_files err (list_dcm_files fs (disk ++ [p]) ext)
                (disk ++ [p]) fs).movedCount,
              (move_dcm_files err (list_dcm_files fs (disk ++ [p]) ext)
                (disk ++ [p]) fs).fs, lg) ∧
      LogMsg.infoAfter p
        ((((move_dcm_files err (list_dcm_files fs (disk ++ [p]) ext)
            (disk ++ [p]) fs).fs.listdir (disk ++ [p])).filter
          (fun n => pyEndswith n ext)).length) ∈ lg ∧
      (((move_dcm_files err (list_dcm_files fs (disk ++ [p]) ext)
          (disk ++ [p]) fs).fs.listdir (disk ++ [p])).filter
        (fun n => pyEndswith n ext)).length =
        matchingFilesDirectCount
          (move_dcm_files err (list_dcm_files fs (disk ++ [p]) ext)
            (disk ++ [p]) fs).fs (disk ++ [p]) ext +
        matchingNonFilesDirectCount
          (move_dcm_files err (list_dcm_files fs (disk ++ [p]) ext)
            (disk ++ [p]) fs).fs (disk ++ [p]) ext := by
  have hdir2 : (move_dcm_files err (list_dcm_files fs (disk ++ [p]) ext)
      (disk ++ [p]) fs).fs.isDirAt (disk ++ [p]) = true := by
    unfold move_dcm_files
    rw [foldl_preserves_isDirAt]
    exact hdir
  have hok : (rerr (disk ++ [p]) ||
      !((move_dcm_files err (list_dcm_files fs (disk ++ [p]) ext)
          (disk ++ [p]) fs).fs.isDirAt (disk ++ [p]))) = false := by
    rw [hrerr, hdir2]
    rfl
  refine ⟨_, process_eq_of_nonempty err rerr fs disk p ext
    (isEmpty_false_of_ne_nil hne) hok, ?_, ?_⟩
  · simp
  · exact recount_split (disk ++ [p]) ext
      (move_dcm_files err (list_dcm_files fs (disk ++ [p]) ext)
        (disk ++ [p]) fs).fs.entries

/-- Witness for the amended C8 on the fixture with a matching
subdirectory name. -/
theorem processor_recount_by_rescan_witness :
    list_dcm_files fsB (["d"] ++ ["p"]) ".dcm" ≠ [] ∧
    fsB.isDirAt (["d"] ++ ["p"]) = true ∧
    (∃ lg, process_patient_directory (fun _ => false) (fun _ => false)
        fsB ["d"] "p" ".dcm" =
        some ((move_dcm_files (fun _ => false)
                (list_dcm_files fsB (["d"] ++ ["p"]) ".dcm")
                (["d"] ++ ["p"]) fsB).movedCount,
              (move_dcm_files (fun _ => false)
                (list_dcm_files fsB (["d"] ++ ["p"]) ".dcm")
                (["d"] ++ ["p"]) fsB).fs, lg) ∧
      LogMsg.infoAfter "p"
        ((((move_dcm_files (fun _ => false)
            (list_dcm_files fsB (["d"] ++ ["p"]) ".dcm")
            (["d"] ++ ["p"]) fsB).fs.listdir (["d"] ++ ["p"])).filter
          (fun n => pyEndswith n ".dcm")).length) ∈ lg ∧
      (((move_dcm_files (fun _ => false)
          (list_dcm_files fsB (["d"] ++ ["p"]) ".dcm")
          (["d"] ++ ["p"]) fsB).fs.listdir (["d"] ++ ["p"])).filter
        (fun n => pyEndswith n ".dcm")).length =
        matchingFilesDirectCount
          (move_dcm_files (fun _ => false)
            (list_dcm_files fsB (["d"] ++ ["p"]) ".dcm")
            (["d"] ++ ["p"]) fsB).fs (["d"] ++ ["p"]) ".dcm" +
        matchingNonFilesDirectCount
          (move_dcm_files (fun _ => false)
            (list_dcm_files fsB (["d"] ++ ["p"]) ".dcm")
            (["d"] ++ ["p"]) fsB).fs (["d"] ++ ["p"]) ".dcm") :=
  ⟨by decide, by decide,
    processor_recount_by_rescan (fun _ => false) (fun _ => false) fsB
      ["d"] "p" ".dcm" (by decide) rfl (by decide)⟩
theorem lookupE_perm {l1 l2 : List (FPath × Node)} (h : l1.Perm l2) :
    ∀ p, (l1.map Prod.fst).Nodup → lookupE l1 p = lookupE l2 p := by
  induction h with
  | nil => intro p _; rfl
  | cons e h ih =>
    intro p hnd
    rw [List.map_cons, List.nodup_cons] at hnd
    show lookupE (e :: _) p = lookupE (e :: _) p
    by_cases he : e.1 = p
    · rw [lookupE, lookupE, if_pos he, if_pos he]
    · rw [lookupE, lookupE, if_neg he, if_neg he]
      exact ih p hnd.2
  | swap x y l =>
    intro p hnd
    simp only [List.map_cons, List.nodup_cons, List.mem_cons] at hnd
    show lookupE (y :: x :: l) p = lookupE (x :: y :: l) p
    by_cases hy : y.1 = p <;> by_cases hx : x.1 = p
    · exact absurd (hy.trans hx.symm) (fun hh => hnd.1 (Or.inl hh))
    · simp [lookupE, hy, hx]
    · simp [lookupE, hy, hx]
    · simp [lookupE, hy, hx]
  | trans h1 h2 ih1 ih2 =>
    intro p hnd
    rw [ih1 p hnd]
    refine ih2 p ?_
    have hkeys := h1.map Prod.fst
    exact hkeys.nodup_iff.mp hnd

theorem lookup_of_perm {fs1 fs2 : FS} (h : fs1.entries.Perm fs2.entries)
    (hnd : (fs1.entries.map Prod.fst).Nodup) (p : FPath) :
    fs1.lookup p = fs2.lookup p :=
  lookupE_perm h p hnd

theorem pathExists_of_isDirAt {fs : FS} {p : FPath}
    (h : fs.isDirAt p = true) : fs.pathExists p = true := by
  rw [isDirAt_iff] at h
  unfold FS.pathExists
  rw [h]
  rfl

theorem mem_listdir_iff_pathExists {fs : FS} {disk : FPath} {d : String} :
    d ∈ fs.listdir disk ↔ fs.pathExists (disk ++ [d]) = true := by
  rw [mem_listdir]
  constructor
  · rintro ⟨p, n, hmem, hne, hdrop, hbase⟩
    have hp : p = disk ++ [d] := by
      rw [← hdrop, ← hbase]
      exact (dropLast_concat_self p hne).symm
    subst hp
    unfold FS.pathExists FS.lookup
    exact lookupE_isSome_of_mem hmem
  · intro h
    unfold FS.pathExists FS.lookup at h
    cases hl : lookupE fs.entries (disk ++ [d]) with
    | none => rw [hl] at h; cases h
    | some n =>
      refine ⟨disk ++ [d], n, lookupE_mem hl, by simp, ?_, basename_concat disk d⟩
      exact List.dropLast_concat

/-- C7: a root enumeration failure is caught, logged at error severity,
and degrades to an empty sequence, the whole run completing with a
total of zero; on success the output contains exactly the immediate
child directories of the root (non-directories excluded), is sorted,
and is identical for any two filesystem values whose entry lists are
permutations of one another (an unchanged root enumerated in any
order). -/
theorem lister_error_sorted_deterministic (err rerr : FPath → Bool)
    (fs fs2 : FS) (disk : FPath) (ext : String) (s : Bool)
    (hwf : fs.Wf) (hperm : fs2.entries.Perm fs.entries) :
    list_patient_directories fs disk true s = ([], [.errListDirs]) ∧
    runPipeline err rerr true fs disk ext = some (0, fs) ∧
    (fs.isDirAt disk = false →
      list_patient_directories fs disk false s = ([], [.errListDirs])) ∧
    (∀ d, d ∈ (list_patient_directories fs disk false true).fst ↔
      fs.isDirAt disk = true ∧ fs.isDirAt (disk ++ [d]) = true) ∧
    List.Sorted (· ≤ ·) (list_patient_directories fs disk false true).fst ∧
    (list_patient_directories fs2 disk false true).fst =
      (list_patient_directories fs disk false true).fst := by
  have hlook : ∀ p, fs2.lookup p = fs.lookup p := fun p =>
    lookup_of_perm hperm
      (((hperm.map Prod.fst).nodup_iff).mpr hwf.1) p
  have hdir2 : ∀ p, fs2.isDirAt p = fs.isDirAt p := fun p => by
    unfold FS.isDirAt
    rw [hlook p]
  refine ⟨?_, ?_, ?_, ?_, ?_, ?_⟩
  · unfold list_patient_directories
    simp
  · unfold runPipeline list_patient_directories
    simp
  · intro h
    unfold list_patient_directories
    rw [h]
    simp
  · intro d
    by_cases hroot : fs.isDirAt disk = true
    · have hout : (list_patient_directories fs disk false true).fst =
          sortStrings ((fs.listdir disk).filter
            (fun d => fs.isDirAt (disk ++ [d]))) := by
        unfold list_patient_directories
        rw [hroot]
        rfl
      rw [hout]
      unfold sortStrings
      rw [(List.perm_insertionSort (· ≤ ·) _).mem_iff, List.mem_filter,
        mem_listdir_iff_pathExists]
      constructor
      · rintro ⟨_, hd⟩
        exact ⟨hroot, by simpa using hd⟩
      · rintro ⟨_, hd⟩
        exact ⟨pathExists_of_isDirAt hd, by simpa using hd⟩
    · have hroot' : fs.isDirAt disk = false := by
        cases hv : fs.isDirAt disk with
        | false => rfl
        | true => exact absurd hv hroot
      unfold list_patient_directories
      rw [hroot']
      simp only [Bool.not_false, Bool.or_true, if_true]
      constructor
      · intro h
        cases h
      · rintro ⟨h, _⟩
        cases h
  · by_cases hroot : fs.isDirAt disk = true
    · unfold list_patient_directories
      rw [hroot]
      simp only [Bool.not_true, Bool.or_false, Bool.false_eq_true, if_false,
        if_true]
      exact List.sorted_insertionSort (· ≤ ·) _
    · have hroot' : fs.isDirAt disk = false := by
        cases hv : fs.isDirAt disk with
        | false => rfl
        | true => exact absurd hv hroot
      unfold list_patient_directories
      rw [hroot']
      simp only [Bool.not_false, Bool.or_true, if_true]
      exact List.sorted_nil
  · unfold list_patient_directories
    rw [hdir2 disk]
    by_cases hroot : fs.isDirAt disk = true
    · rw [hroot]
      simp only [Bool.not_true, Bool.or_false, Bool.false_eq_true, if_false,
        if_true]
      have hld : (fs2.listdir disk).Perm (fs.listdir disk) :=
        hperm.filterMap _
      have hfc : (fs2.listdir disk).filter
          (fun d => fs2.isDirAt (disk ++ [d])) =
        (fs2.listdir disk).filter (fun d => fs.isDirAt (disk ++ [d])) := by
        apply List.filter_congr
        intro x _
        rw [hdir2 (disk ++ [x])]
      rw [hfc]
      have hfp : ((fs2.listdir disk).filter
          (fun d => fs.isDirAt (disk ++ [d]))).Perm
        ((fs.listdir disk).filter (fun d => fs.isDirAt (disk ++ [d]))) :=
        hld.filter _
      refine List.eq_of_perm_of_sorted ?_
        (List.sorted_insertionSort (· ≤ ·) _)
        (List.sorted_insertionSort (· ≤ ·) _)
      exact (List.perm_insertionSort (· ≤ ·) _).trans
        (hfp.trans (List.perm_insertionSort (· ≤ ·) _).symm)
    · have hroot' : fs.isDirAt disk = false := by
        cases hv : fs.isDirAt disk with
        | false => rfl
        | true => exact absurd hv hroot
      rw [hroot']
      simp

/-- Witness for C7: the same tree enumerated in two different orders
produces the identical sorted patient list. -/
theorem lister_error_sorted_deterministic_witness :
    fsA.Wf ∧ fsA2.entries.Perm fsA.entries ∧
    (list_patient_directories fsA2 ["d"] false true).fst =
      (list_patient_directories fsA ["d"] false true).fst :=
  ⟨by decide, by decide,
    (lister_error_sorted_deterministic (fun _ => false) (fun _ => false)
      fsA fsA2 ["d"] ".dcm" true (by decide) (by decide)).2.2.2.2.2⟩

theorem top_inj {pp : FPath} {x y : String} (h : pp ++ [x] = pp ++ [y]) :
    x = y := by
  have h2 := congrArg (List.drop pp.length) h
  rw [List.drop_left, List.drop_left] at h2
  injection h2

theorem lookup_after_moveOne_of_ne (err : FPath → Bool) (pp : FPath)
    (st : MoveState) (h q : FPath) (hq1 : q ≠ h)
    (hq2 : q ≠ pp ++ [basename h]) :
    (moveOne err pp st h).fs.lookup q = st.fs.lookup q := by
  rcases moveOne_fs_cases err pp st h with hc | ⟨hc, _, _, _⟩
  · rw [hc]
  · rw [hc, lookup_rename_of_ne st.fs hq1 hq2]
/-- C10: when several candidates share a basename and their common
destination does not initially exist, the first such candidate in list
order (no earlier candidate having that basename) is moved: afterwards
the destination holds the first candidate's content and the first
candidate is gone from its original path, while every later candidate
with that basename is skipped by the per-iteration existence check — a
skip warning naming the destination is logged and the later candidate's
entry is left exactly as it was. -/
theorem basename_collision_first_wins (err : FPath → Bool) (pp : FPath)
    (fs : FS) (C0 A B : List FPath) (f g : FPath) (b : String)
    (hC : (C0 ++ f :: (A ++ g :: B)).Nodup)
    (hfiles : ∀ h ∈ C0 ++ f :: (A ++ g :: B), fs.isFileAt h = true)
    (herrf : err f = false)
    (hdest : fs.pathExists (pp ++ [b]) = false)
    (hbf : basename f = b) (hbg : basename g = b)
    (hC0 : ∀ h ∈ C0, basename h ≠ b) :
    ∃ c, fs.lookup f = some (.file c) ∧
      (move_dcm_files err (C0 ++ f :: (A ++ g :: B)) pp fs).fs.lookup
        (pp ++ [b]) = some (.file c) ∧
      (move_dcm_files err (C0 ++ f :: (A ++ g :: B)) pp fs).fs.lookup f =
        none ∧
      (move_dcm_files err (C0 ++ f :: (A ++ g :: B)) pp fs).fs.lookup g =
        fs.lookup g ∧
      LogMsg.warnExists (pp ++ [b]) ∈
        (move_dcm_files err (C0 ++ f :: (A ++ g :: B)) pp fs).log := by
  rw [List.nodup_append] at hC
  obtain ⟨hndC0, hndf, hdisj⟩ := hC
  rw [List.nodup_cons] at hndf
  obtain ⟨hfC1, hndC1⟩ := hndf
  have hgmem : g ∈ A ++ g :: B := by simp
  have hfile_f : fs.isFileAt f = true := hfiles f (by simp)
  rcases isFileAt_iff.mp hfile_f with ⟨c, hcf⟩
  have hnotop : ∀ h ∈ C0 ++ f :: (A ++ g :: B), h ≠ pp ++ [b] := by
    intro h hh heq
    have hx := pathExists_of_isFileAt (hfiles h hh)
    rw [heq] at hx
    rw [hx] at hdest
    cases hdest
  have hgf : g ≠ f := by
    intro hx
    exact hfC1 (hx ▸ hgmem)
  unfold move_dcm_files
  rw [List.foldl_append, List.foldl_cons]
  -- Stage 1: processing C0 touches neither the shared destination nor f nor g.
  have hI0 : (C0.foldl (moveOne err pp) ⟨fs, 0, []⟩).fs.pathExists
        (pp ++ [b]) = false ∧
      (C0.foldl (moveOne err pp) ⟨fs, 0, []⟩).fs.lookup f = fs.lookup f ∧
      (C0.foldl (moveOne err pp) ⟨fs, 0, []⟩).fs.lookup g = fs.lookup g := by
    refine foldl_moveOne_inv err pp
      (I := fun st' => st'.fs.pathExists (pp ++ [b]) = false ∧
        st'.fs.lookup f = fs.lookup f ∧ st'.fs.lookup g = fs.lookup g)
      C0 ⟨fs, 0, []⟩ ⟨hdest, rfl, rfl⟩ ?_
    rintro st' h hh ⟨h1, h2, h3⟩
    have hbh : basename h ≠ b := hC0 h hh
    have hfh : f ≠ h := by
      intro hx
      have hfh2 : f ∈ C0 := by rw [hx]; exact hh
      exact hdisj hfh2 (by simp)
    have hgh : g ≠ h := by
      intro hx
      have hgh2 : g ∈ C0 := by rw [hx]; exact hh
      exact hdisj hgh2 (by simp [hgmem])
    have hdesthb : (pp ++ [b] : FPath) ≠ pp ++ [basename h] := by
      intro heq
      exact hbh (top_inj heq).symm
    have hhb : (pp ++ [b] : FPath) ≠ h :=
      Ne.symm (hnotop h (List.mem_append_left _ hh))
    refine ⟨?_, ?_, ?_⟩
    · rw [pathExists_false_iff] at h1 ⊢
      rw [lookup_after_moveOne_of_ne err pp st' h _ hhb hdesthb]
      exact h1
    · rw [lookup_after_moveOne_of_ne err pp st' h f hfh ?_]
      · exact h2
      · intro heq
        have hb2 := basename_concat pp (basename h)
        rw [← heq, hbf] at hb2
        exact hbh hb2.symm
    · rw [lookup_after_moveOne_of_ne err pp st' h g hgh ?_]
      · exact h3
      · intro heq
        have hb2 := basename_concat pp (basename h)
        rw [← heq, hbg] at hb2
        exact hbh hb2.symm
  obtain ⟨hI01, hI02, hI03⟩ := hI0
  -- Stage 2: the first same-basename candidate is moved.
  have hfileM : (C0.foldl (moveOne err pp) ⟨fs, 0, []⟩).fs.isFileAt f = true := by
    rw [isFileAt_iff]
    exact ⟨c, by rw [hI02]; exact hcf⟩
  have hdm : (C0.foldl (moveOne err pp) ⟨fs, 0, []⟩).fs.pathExists
      (pp ++ [basename f]) = false := by
    rw [hbf]
    exact hI01
  have hmove := @moveOne_move err pp _ f hdm hfileM herrf
  have hF1 : (moveOne err pp (C0.foldl (moveOne err pp) ⟨fs, 0, []⟩) f).fs.lookup
      (pp ++ [b]) = some (.file c) := by
    rw [hmove]
    show ((C0.foldl (moveOne err pp) ⟨fs, 0, []⟩).fs.rename f
      (pp ++ [basename f])).lookup (pp ++ [b]) = some (.file c)
    rw [hbf, lookup_rename_dst _ (pathExists_false_iff.mp hI01), hI02]
    exact hcf
  have hF2 : (moveOne err pp (C0.foldl (moveOne err pp) ⟨fs, 0, []⟩) f).fs.lookup
      f = none := by
    rw [hmove]
    exact lookup_rename_src _ (src_ne_dst hfileM hdm)
  have hF3 : (moveOne err pp (C0.foldl (moveOne err pp) ⟨fs, 0, []⟩) f).fs.lookup
      g = fs.lookup g := by
    rw [hmove]
    show ((C0.foldl (moveOne err pp) ⟨fs, 0, []⟩).fs.rename f
      (pp ++ [basename f])).lookup g = fs.lookup g
    rw [hbf, lookup_rename_of_ne _ hgf (hnotop g (by simp [hgmem])), hI03]
  -- Stage 3: once the destination exists, it and the moved/later files
  -- are stable under the remaining iterations.
  have hstep : ∀ (st' : MoveState) (h : FPath), h ∈ A ++ g :: B →
      (st'.fs.lookup (pp ++ [b]) = some (.file c) ∧
        st'.fs.lookup f = none ∧ st'.fs.lookup g = fs.lookup g) →
      ((moveOne err pp st' h).fs.lookup (pp ++ [b]) = some (.file c) ∧
        (moveOne err pp st' h).fs.lookup f = none ∧
        (moveOne err pp st' h).fs.lookup g = fs.lookup g) := by
    rintro st' h hh ⟨j1, j2, j3⟩
    rcases moveOne_fs_cases err pp st' h with hcase | ⟨hcase, hp1, hp2, _⟩
    · rw [hcase]
      exact ⟨j1, j2, j3⟩
    · have hhmem : h ∈ C0 ++ f :: (A ++ g :: B) :=
        List.mem_append_right _ (List.mem_cons_of_mem f hh)
      have hhtop : h ≠ pp ++ [b] := hnotop h hhmem
      have hdesth : (pp ++ [basename h] : FPath) ≠ pp ++ [b] := by
        intro heq
        have hbh : basename h = b := top_inj heq
        rw [hbh] at hp1
        rw [pathExists_false_iff, j1] at hp1
        cases hp1
      have hfh : f ≠ h := by
        intro hx
        exact hfC1 (hx ▸ hh)
      have hfd : f ≠ pp ++ [basename h] := by
        intro heq
        have hb2 := basename_concat pp (basename h)
        rw [← heq, hbf] at hb2
        exact hdesth (by rw [hb2])
      have hgh : g ≠ h := by
        intro hx
        refine hdesth ?_
        rw [hx] at hbg
        rw [hbg]
      have hgd : g ≠ pp ++ [basename h] := by
        intro heq
        have hb2 := basename_concat pp (basename h)
        rw [← heq, hbg] at hb2
        exact hdesth (by rw [hb2])
      refine ⟨?_, ?_, ?_⟩
      · rw [hcase, lookup_rename_of_ne _ (Ne.symm hhtop) (Ne.symm hdesth)]
        exact j1
      · rw [hcase, lookup_rename_of_ne _ hfh hfd]
        exact j2
      · rw [hcase, lookup_rename_of_ne _ hgh hgd]
        exact j3
  rw [List.foldl_append, List.foldl_cons]
  have hIA : ((A.foldl (moveOne err pp)
      (moveOne err pp (C0.foldl (moveOne err pp) ⟨fs, 0, []⟩) f)).fs.lookup
        (pp ++ [b]) = some (.file c) ∧
      (A.foldl (moveOne err pp)
        (moveOne err pp (C0.foldl (moveOne err pp) ⟨fs, 0, []⟩) f)).fs.lookup
        f = none ∧
      (A.foldl (moveOne err pp)
        (moveOne err pp (C0.foldl (moveOne err pp) ⟨fs, 0, []⟩) f)).fs.lookup
        g = fs.lookup g) := by
    refine foldl_moveOne_inv err pp
      (I := fun st' => st'.fs.lookup (pp ++ [b]) = some (.file c) ∧
        st'.fs.lookup f = none ∧ st'.fs.lookup g = fs.lookup g)
      A _ ⟨hF1, hF2, hF3⟩ ?_
    intro st' h hh hI
    exact hstep st' h (List.mem_append_left _ hh) hI
  obtain ⟨hA1, hA2, hA3⟩ := hIA
  have hgexists : (A.foldl (moveOne err pp)
      (moveOne err pp (C0.foldl (moveOne err pp) ⟨fs, 0, []⟩) f)).fs.pathExists
      (pp ++ [basename g]) = true := by
    rw [hbg]
    unfold FS.pathExists
    rw [hA1]
    rfl
  have hgskip := @moveOne_skip err pp _ g hgexists
  have hIg : ((moveOne err pp (A.foldl (moveOne err pp)
        (moveOne err pp (C0.foldl (moveOne err pp) ⟨fs, 0, []⟩) f)) g).fs.lookup
        (pp ++ [b]) = some (.file c) ∧
      (moveOne err pp (A.foldl (moveOne err pp)
        (moveOne err pp (C0.foldl (moveOne err pp) ⟨fs, 0, []⟩) f)) g).fs.lookup
        f = none ∧
      (moveOne err pp (A.foldl (moveOne err pp)
        (moveOne err pp (C0.foldl (moveOne err pp) ⟨fs, 0, []⟩) f)) g).fs.lookup
        g = fs.lookup g) := by
    rw [hgskip]
    exact ⟨hA1, hA2, hA3⟩
  have hIB := foldl_moveOne_inv err pp
    (I := fun st' => st'.fs.lookup (pp ++ [b]) = some (.file c) ∧
      st'.fs.lookup f = none ∧ st'.fs.lookup g = fs.lookup g)
    B _ hIg (fun st' h hh hI =>
      hstep st' h (List.mem_append_right _ (List.mem_cons_of_mem g hh)) hI)
  refine ⟨c, hcf, hIB.1, hIB.2.1, hIB.2.2, ?_⟩
  apply foldl_moveOne_log_mem
  rw [hgskip]
  rw [hbg]
  simp

/-- Witness for C10: two nested candidates both named "a.dcm". -/
theorem basename_collision_first_wins_witness :
    ([] ++ ["d","p","s1","a.dcm"] ::
      ([] ++ ["d","p","s2","a.dcm"] :: ([] : List FPath))).Nodup ∧
    fsD.pathExists (["d","p"] ++ ["a.dcm"]) = false ∧
    (∃ c, fsD.lookup ["d","p","s1","a.dcm"] = some (.file c) ∧
      (move_dcm_files (fun _ => false)
        ([] ++ ["d","p","s1","a.dcm"] ::
          ([] ++ ["d","p","s2","a.dcm"] :: ([] : List FPath))) ["d","p"]
        fsD).fs.lookup (["d","p"] ++ ["a.dcm"]) = some (.file c) ∧
      (move_dcm_files (fun _ => false)
        ([] ++ ["d","p","s1","a.dcm"] ::
          ([] ++ ["d","p","s2","a.dcm"] :: ([] : List FPath))) ["d","p"]
        fsD).fs.lookup ["d","p","s1","a.dcm"] = none ∧
      (move_dcm_files (fun _ => false)
        ([] ++ ["d","p","s1","a.dcm"] ::
          ([] ++ ["d","p","s2","a.dcm"] :: ([] : List FPath))) ["d","p"]
        fsD).fs.lookup ["d","p","s2","a.dcm"] =
        fsD.lookup ["d","p","s2","a.dcm"] ∧
      LogMsg.warnExists (["d","p"] ++ ["a.dcm"]) ∈
        (move_dcm_files (fun _ => false)
          ([] ++ ["d","p","s1","a.dcm"] ::
            ([] ++ ["d","p","s2","a.dcm"] :: ([] : List FPath))) ["d","p"]
          fsD).log) :=
  ⟨by decide, by decide,
    basename_collision_first_wins (fun _ => false) ["d","p"] fsD [] [] []
      ["d","p","s1","a.dcm"] ["d","p","s2","a.dcm"] "a.dcm" (by decide)
      (by decide) rfl (by decide) (by decide) (by decide) (by decide)⟩

theorem inits_concat_sub {q pp : FPath} {x : String}
    (h : q ∈ (pp ++ [x]).inits) (hne : q ≠ pp ++ [x]) : q ∈ pp.inits := by
  rcases (List.mem_inits _ _).mp h with ⟨t, ht⟩
  cases t with
  | nil =>
    rw [List.append_nil] at ht
    exact absurd ht hne
  | cons a t' =>
    have hlen : q.length + (a :: t').length = pp.length + 1 := by
      rw [← List.length_append, ht, List.length_append, List.length_cons,
        List.length_nil]
    have hle : q.length ≤ pp.length := by
      simp only [List.length_cons] at hlen
      omega
    have hq : q = pp.take q.length := by
      have h1 : q = (q ++ a :: t').take q.length := (List.take_left q _).symm
      rw [ht, List.take_append_of_le_length hle] at h1
      exact h1
    rw [List.mem_inits]
    refine ⟨pp.drop q.length, ?_⟩
    have h2 := List.take_append_drop q.length pp
    rw [← hq] at h2
    exact h2

theorem filterMap_rename {β : Type} {F : (FPath × Node) → Option β}
    {src dst : FPath} (hF : ∀ n, F (src, n) = none ∧ F (dst, n) = none) :
    ∀ (l : List (FPath × Node)),
      (l.map (fun e => if e.1 = src then (dst, e.2) else e)).filterMap F =
        l.filterMap F
  | [] => rfl
  | e :: rest => by
    rw [List.map_cons, List.filterMap_cons, List.filterMap_cons]
    by_cases he : e.1 = src
    · rw [if_pos he]
      have h1 : F (dst, e.2) = none := (hF e.2).2
      have h2 : F e = none := by
        have : e = (src, e.2) := by
          rw [Prod.ext_iff]
          exact ⟨he, rfl⟩
        rw [this]
        exact (hF e.2).1
      rw [h1, h2]
      exact filterMap_rename hF rest
    · rw [if_neg he]
      cases hFe : F e with
      | none => exact filterMap_rename hF rest
      | some b => rw [filterMap_rename hF rest]

theorem concatMap_congr {f g : α → List β} :
    ∀ {l : List α}, (∀ a ∈ l, f a = g a) → concatMap f l = concatMap g l
  | [], _ => rfl
  | a :: as, h => by
    unfold concatMap
    rw [h a (by simp), concatMap_congr (fun x hx => h x (by simp [hx]))]

theorem disk_child_ne {disk : FPath} {p p' : String} (hne : p ≠ p')
    (s t : List String) : disk ++ p :: s ≠ disk ++ p' :: t := by
  intro h
  have h2 := congrArg (List.drop disk.length) h
  rw [List.drop_left, List.drop_left] at h2
  injection h2 with h3
  exact hne h3

theorem underP_shape {disk : FPath} {p : String} {f : FPath}
    (h : properUnder (disk ++ [p]) f = true) :
    ∃ s, s ≠ [] ∧ f = disk ++ p :: s := by
  rcases properUnder_iff.mp h with ⟨s, hs, rfl⟩
  exact ⟨s, hs, by simp⟩

theorem moveOne_preserves_wf (err : FPath → Bool) (pp : FPath)
    (st : MoveState) (f : FPath) (hdir : st.fs.isDirAt pp = true)
    (hwf : st.fs.Wf) : (moveOne err pp st f).fs.Wf := by
  rcases moveOne_fs_cases err pp st f with hc | ⟨hc, hp1, hp2, _⟩
  · rw [hc]
    exact hwf
  · rw [hc]
    obtain ⟨hnd, hne, hpc⟩ := hwf
    have hdirEq : ∀ q, ((st.fs.rename f (pp ++ [basename f])).isDirAt q) =
        st.fs.isDirAt q := isDirAt_rename_of_move hp2 hp1
    refine ⟨nodup_keys_rename st.fs hnd (pathExists_false_iff.mp hp1), ?_, ?_⟩
    · intro e' he'
      rcases List.mem_map.mp he' with ⟨e, he, heq⟩
      by_cases hef : e.1 = f
      · rw [if_pos hef] at heq
        rw [← heq]
        simp
      · rw [if_neg hef] at heq
        rw [← heq]
        exact hne e he
    · intro e' he' q hq hq1 hq2
      rw [hdirEq q]
      rcases List.mem_map.mp he' with ⟨e, he, heq⟩
      by_cases hef : e.1 = f
      · rw [if_pos hef] at heq
        have he'1 : e'.1 = pp ++ [basename f] := by
          rw [← heq]
        rw [he'1] at hq hq2
        have hqpp : q ∈ pp.inits := inits_concat_sub hq hq2
        by_cases hqp : q = pp
        · rw [hqp]
          exact hdir
        · have hppmem : (pp, Node.dir) ∈ st.fs.entries :=
            lookupE_mem (isDirAt_iff.mp hdir)
          exact hpc (pp, Node.dir) hppmem q hqpp hq1 hqp
      · rw [if_neg hef] at heq
        rw [← heq] at hq hq2
        exact hpc e he q hq hq1 hq2

theorem foldl_preserves_wf (err : FPath → Bool) (pp : FPath)
    (C : List FPath) (st : MoveState) (hdir : st.fs.isDirAt pp = true)
    (hwf : st.fs.Wf) :
    (C.foldl (moveOne err pp) st).fs.Wf ∧
      (C.foldl (moveOne err pp) st).fs.isDirAt pp = true := by
  refine foldl_moveOne_inv err pp
    (I := fun st' => st'.fs.Wf ∧ st'.fs.isDirAt pp = true)
    C st ⟨hwf, hdir⟩ ?_
  rintro st' g _ ⟨h1, h2⟩
  refine ⟨moveOne_preserves_wf err pp st' g h2 h1, ?_⟩
  rw [moveOne_preserves_isDirAt]
  exact h2

theorem append_cons_ne_self (disk : FPath) (a : String) (l : List String) :
    disk ++ a :: l ≠ disk := by
  intro h
  have h2 := congrArg List.length h
  simp at h2

/-- Moving a candidate of patient `p` changes neither the root listing
nor anything another patient's walk or top level can observe. -/
theorem moveOne_frame (err : FPath → Bool) (disk : FPath) (p : String)
    (st : MoveState) (f : FPath)
    (hf : properUnder (disk ++ [p]) f = true) :
    ((moveOne err (disk ++ [p]) st f).fs.listdir disk =
      st.fs.listdir disk) ∧
    (∀ p' : String, p ≠ p' → ∀ ext : String,
      list_dcm_files (moveOne err (disk ++ [p]) st f).fs (disk ++ [p']) ext =
        list_dcm_files st.fs (disk ++ [p']) ext) ∧
    (∀ p' : String, p ≠ p' → ∀ x : String,
      (moveOne err (disk ++ [p]) st f).fs.lookup ((disk ++ [p']) ++ [x]) =
        st.fs.lookup ((disk ++ [p']) ++ [x])) := by
  rcases moveOne_fs_cases err (disk ++ [p]) st f with hc | ⟨hc, _, _, _⟩
  · rw [hc]
    exact ⟨rfl, fun _ _ _ => rfl, fun _ _ _ => rfl⟩
  · rcases underP_shape hf with ⟨s, hs, hfshape⟩
    have hdst : (disk ++ [p]) ++ [basename f] = disk ++ p :: [basename f] := by
      simp
    have hdlf : f.dropLast = disk ++ p :: s.dropLast := by
      rw [hfshape, dropLast_append_right disk (p :: s) (by simp),
        List.dropLast_cons_of_ne_nil hs]
    have hdld : ((disk ++ [p]) ++ [basename f]).dropLast = disk ++ [p] :=
      List.dropLast_concat
    refine ⟨?_, ?_, ?_⟩
    · rw [hc]
      show ((st.fs.entries.map _).filterMap _) = _
      apply filterMap_rename
      intro n
      constructor
      · rw [if_neg]
        rintro ⟨_, hdrop⟩
        rw [hdlf] at hdrop
        exact append_cons_ne_self disk p s.dropLast hdrop
      · rw [if_neg]
        rintro ⟨_, hdrop⟩
        rw [hdld] at hdrop
        exact append_cons_ne_self disk p [] (by simpa using hdrop)
    · intro p' hne ext
      rw [hc]
      have hdirs : (st.fs.rename f ((disk ++ [p]) ++ [basename f])).dirsUnder
          (disk ++ [p']) = st.fs.dirsUnder (disk ++ [p']) := by
        show ((st.fs.entries.map _).filterMap _) = _
        apply filterMap_rename
        intro n
        constructor
        · rw [if_neg]
          rintro ⟨_, hu⟩
          rcases underP_shape hu with ⟨t, _, hshape2⟩
          rw [hfshape] at hshape2
          exact disk_child_ne hne s t hshape2
        · rw [if_neg]
          rintro ⟨_, hu⟩
          rcases underP_shape hu with ⟨t, _, hshape2⟩
          rw [hdst] at hshape2
          exact disk_child_ne hne [basename f] t hshape2
      have hchild : ∀ root ∈ (disk ++ [p']) ::
          st.fs.dirsUnder (disk ++ [p']),
          (st.fs.rename f ((disk ++ [p]) ++ [basename f])).childFiles root =
            st.fs.childFiles root := by
        intro root hroot
        have hrshape : ∃ t : List String, root = disk ++ p' :: t := by
          rcases List.mem_cons.mp hroot with h1 | h2
          · exact ⟨[], by simp [h1]⟩
          · rcases mem_dirsUnder.mp h2 with ⟨_, hu⟩
            rcases underP_shape hu with ⟨t, _, hshape2⟩
            exact ⟨t, hshape2⟩
        rcases hrshape with ⟨t, hroott⟩
        show ((st.fs.entries.map _).filterMap _) = _
        apply filterMap_rename
        intro n
        constructor
        · rw [if_neg]
          rintro ⟨_, hdrop, _⟩
          rw [hdlf, hroott] at hdrop
          exact disk_child_ne hne s.dropLast t hdrop
        · rw [if_neg]
          rintro ⟨_, hdrop, _⟩
          rw [hdld, hroott] at hdrop
          have : disk ++ p :: ([] : List String) = disk ++ p' :: t := by
            simpa using hdrop
          exact disk_child_ne hne [] t this
      unfold list_dcm_files
      rw [hdirs]
      apply concatMap_congr
      intro root hroot
      rw [hchild root hroot]
    · intro p' hne x
      rw [hc]
      apply lookup_rename_of_ne
      · intro heq
        rw [hfshape] at heq
        have h2 : disk ++ p' :: [x] = disk ++ p :: s := by simpa using heq
        exact disk_child_ne (fun hx => hne hx.symm) [x] s h2
      · intro heq
        rw [hdst] at heq
        have h2 : disk ++ p' :: [x] = disk ++ p :: [basename f] := by
          simpa using heq
        exact disk_child_ne (fun hx => hne hx.symm) [x] [basename f] h2

theorem foldl_frame (err : FPath → Bool) (disk : FPath) (p : String)
    (C : List FPath) (st : MoveState)
    (hunder : ∀ f ∈ C, properUnder (disk ++ [p]) f = true) :
    ((C.foldl (moveOne err (disk ++ [p])) st).fs.listdir disk =
      st.fs.listdir disk) ∧
    (∀ p' : String, p ≠ p' → ∀ ext : String,
      list_dcm_files (C.foldl (moveOne err (disk ++ [p])) st).fs
        (disk ++ [p']) ext = list_dcm_files st.fs (disk ++ [p']) ext) ∧
    (∀ p' : String, p ≠ p' → ∀ x : String,
      (C.foldl (moveOne err (disk ++ [p])) st).fs.lookup
        ((disk ++ [p']) ++ [x]) =
        st.fs.lookup ((disk ++ [p']) ++ [x])) := by
  refine foldl_moveOne_inv err (disk ++ [p])
    (I := fun st' => (st'.fs.listdir disk = st.fs.listdir disk) ∧
      (∀ p' : String, p ≠ p' → ∀ ext : String,
        list_dcm_files st'.fs (disk ++ [p']) ext =
          list_dcm_files st.fs (disk ++ [p']) ext) ∧
      (∀ p' : String, p ≠ p' → ∀ x : String,
        st'.fs.lookup ((disk ++ [p']) ++ [x]) =
          st.fs.lookup ((disk ++ [p']) ++ [x])))
    C st ⟨rfl, fun _ _ _ => rfl, fun _ _ _ => rfl⟩ ?_
  rintro st' g hg ⟨h1, h2, h3⟩
  obtain ⟨m1, m2, m3⟩ := moveOne_frame err disk p st' g (hunder g hg)
  refine ⟨m1.trans h1, ?_, ?_⟩
  · intro p' hne ext
    rw [m2 p' hne ext, h2 p' hne ext]
  · intro p' hne x
    rw [m3 p' hne x, h3 p' hne x]

theorem settled_fold (err : FPath → Bool) (pp : FPath) (ext : String)
    (fs : FS) (h : Settled err fs pp ext) :
    ∀ (C : List FPath), (∀ f ∈ C, f ∈ list_dcm_files fs pp ext) →
    ∀ (c : Nat) (lg : List LogMsg),
      (C.foldl (moveOne err pp) ⟨fs, c, lg⟩).fs = fs ∧
      (C.foldl (moveOne err pp) ⟨fs, c, lg⟩).movedCount = c
  | [], _, c, lg => ⟨rfl, rfl⟩
  | f :: rest, hmem, c, lg => by
    rw [List.foldl_cons]
    have hrest : ∀ g ∈ rest, g ∈ list_dcm_files fs pp ext :=
      fun g hg => hmem g (by simp [hg])
    by_cases hex : fs.pathExists (pp ++ [basename f]) = true
    · rw [@moveOne_skip err pp ⟨fs, c, lg⟩ f hex]
      exact settled_fold err pp ext fs h rest hrest c _
    · have hex2 : fs.pathExists (pp ++ [basename f]) = false := by
        cases hv : fs.pathExists (pp ++ [basename f]) with
        | false => rfl
        | true => exact absurd hv hex
      have herr2 : err f = true := by
        rcases h f (hmem f (by simp)) with hc1 | hc2
        · exact absurd hc1 hex
        · exact hc2
      rw [@moveOne_err err pp ⟨fs, c, lg⟩ f hex2 (Or.inr herr2)]
      exact settled_fold err pp ext fs h rest hrest c _

theorem process_of_settled (err rerr : FPath → Bool) (fs : FS)
    (disk : FPath) (p : String) (ext : String)
    (h : Settled err fs (disk ++ [p]) ext)
    (hrerr : rerr (disk ++ [p]) = false)
    (hdir : fs.isDirAt (disk ++ [p]) = true) :
    ∃ lg, process_patient_directory err rerr fs disk p ext =
      some (0, fs, lg) := by
  by_cases hemp : (list_dcm_files fs (disk ++ [p]) ext).isEmpty = true
  · refine ⟨[.infoNoFiles p], ?_⟩
    unfold process_patient_directory
    simp only [hemp, if_true]
  · have hemp2 : (list_dcm_files fs (disk ++ [p]) ext).isEmpty = false := by
      cases hv : (list_dcm_files fs (disk ++ [p]) ext).isEmpty with
      | false => rfl
      | true => exact absurd hv hemp
    obtain ⟨hfs, hcnt⟩ := settled_fold err (disk ++ [p]) ext fs h
      (list_dcm_files fs (disk ++ [p]) ext) (fun f hf => hf) 0 []
    have hok : (rerr (disk ++ [p]) ||
        !((move_dcm_files err (list_dcm_files fs (disk ++ [p]) ext)
            (disk ++ [p]) fs).fs.isDirAt (disk ++ [p]))) = false := by
      unfold move_dcm_files
      rw [hrerr, hfs, hdir]
      rfl
    have heq := process_eq_of_nonempty err rerr fs disk p ext hemp2 hok
    unfold move_dcm_files at heq
    rw [hfs, hcnt] at heq
    exact ⟨_, heq⟩

theorem settled_after_fold (err : FPath → Bool) (pp : FPath) (ext : String)
    (fs : FS) (hwf : fs.Wf) :
    Settled err ((list_dcm_files fs pp ext).foldl (moveOne err pp)
      ⟨fs, 0, []⟩).fs pp ext := by
  intro f2 hf2
  have hnd1 := foldl_preserves_nodup err pp (list_dcm_files fs pp ext)
    ⟨fs, 0, []⟩ hwf.1
  rcases mem_list_dcm_files_forward hnd1 hf2 with ⟨hfile, hunder, hext⟩
  rcases foldl_isFileAt_new err pp (list_dcm_files fs pp ext) ⟨fs, 0, []⟩
    f2 hfile with hold | ⟨x, hx⟩
  · have hmem0 : f2 ∈ list_dcm_files fs pp ext :=
      mem_list_dcm_files_backward hwf hold hunder hext
    have hD := foldl_DProp err pp (list_dcm_files fs pp ext) ⟨fs, 0, []⟩
      f2 hmem0
    unfold DProp at hD
    rcases hD with h1 | h2 | h3
    · exact Or.inl h1
    · exact Or.inr h2
    · rw [hfile] at h3
      cases h3
  · left
    have hb : basename f2 = x := by
      rw [hx]
      exact basename_concat pp x
    rw [hb, ← hx]
    exact pathExists_of_isFileAt hfile

theorem patients_isDirAt {fs : FS} {disk : FPath} {d : String}
    (h : d ∈ (list_patient_directories fs disk false true).fst) :
    fs.isDirAt (disk ++ [d]) = true := by
  by_cases hroot : fs.isDirAt disk = true
  · have hout : (list_patient_directories fs disk false true).fst =
        sortStrings ((fs.listdir disk).filter
          (fun d => fs.isDirAt (disk ++ [d]))) := by
      unfold list_patient_directories
      rw [hroot]
      rfl
    rw [hout] at h
    unfold sortStrings at h
    rw [(List.perm_insertionSort (· ≤ ·) _).mem_iff] at h
    have := (List.mem_filter.mp h).2
    simpa using this
  · have hroot2 : fs.isDirAt disk = false := by
      cases hv : fs.isDirAt disk with
      | false => rfl
      | true => exact absurd hv hroot
    have hout : (list_patient_directories fs disk false true).fst = [] := by
      unfold list_patient_directories
      rw [hroot2]
      rfl
    rw [hout] at h
    cases h

theorem listdirE_nodup (disk : FPath) :
    ∀ (l : List (FPath × Node)), (l.map Prod.fst).Nodup →
      (l.filterMap (fun e =>
        if e.1 ≠ [] ∧ e.1.dropLast = disk then some (basename e.1)
        else none)).Nodup
  | [], _ => List.nodup_nil
  | e :: rest, hnd => by
    rw [List.map_cons, List.nodup_cons] at hnd
    rw [List.filterMap_cons]
    by_cases hc : e.1 ≠ [] ∧ e.1.dropLast = disk
    · rw [if_pos hc]
      refine List.nodup_cons.mpr ⟨?_, listdirE_nodup disk rest hnd.2⟩
      intro hmem
      rcases List.mem_filterMap.mp hmem with ⟨e', he', hcond⟩
      by_cases hc' : e'.1 ≠ [] ∧ e'.1.dropLast = disk
      · rw [if_pos hc'] at hcond
        injection hcond with hb
        have he1 : e.1 = disk ++ [basename e.1] := by
          rw [← hc.2]
          exact (dropLast_concat_self e.1 hc.1).symm
        have he2 : e'.1 = disk ++ [basename e'.1] := by
          rw [← hc'.2]
          exact (dropLast_concat_self e'.1 hc'.1).symm
        have heq : e'.1 = e.1 := by
          rw [he2, hb, ← he1]
        refine hnd.1 ?_
        rw [← heq]
        exact List.mem_map.mpr ⟨e', he', rfl⟩
      · rw [if_neg hc'] at hcond
        cases hcond
    · rw [if_neg hc]
      exact listdirE_nodup disk rest hnd.2

theorem listdir_nodup {fs : FS} {disk : FPath}
    (hnd : (fs.entries.map Prod.fst).Nodup) : (fs.listdir disk).Nodup :=
  listdirE_nodup disk fs.entries hnd

theorem patients_nodup {fs : FS} {disk : FPath}
    (hnd : (fs.entries.map Prod.fst).Nodup) :
    ((list_patient_directories fs disk false true).fst).Nodup := by
  by_cases hroot : fs.isDirAt disk = true
  · have hout : (list_patient_directories fs disk false true).fst =
        sortStrings ((fs.listdir disk).filter
          (fun d => fs.isDirAt (disk ++ [d]))) := by
      unfold list_patient_directories
      rw [hroot]
      rfl
    rw [hout]
    unfold sortStrings
    exact ((List.perm_insertionSort (· ≤ ·) _).nodup_iff).mpr
      ((listdir_nodup hnd).filter _)
  · have hroot2 : fs.isDirAt disk = false := by
      cases hv : fs.isDirAt disk with
      | false => rfl
      | true => exact absurd hv hroot
    have hout : (list_patient_directories fs disk false true).fst = [] := by
      unfold list_patient_directories
      rw [hroot2]
      rfl
    rw [hout]
    exact List.nodup_nil

theorem run2_induct (err : FPath → Bool) (disk : FPath) (ext : String) :
    ∀ (ps : List String) (fs : FS) (t : Nat),
      (∀ p ∈ ps, Settled err fs (disk ++ [p]) ext) →
      (∀ p ∈ ps, fs.isDirAt (disk ++ [p]) = true) →
      ps.foldl (pipelineStep err (fun _ => false) disk ext) (some (t, fs)) =
        some (t, fs)
  | [], _, _, _, _ => rfl
  | p :: rest, fs, t, hs, hd => by
    rw [List.foldl_cons]
    obtain ⟨lg, hproc⟩ := process_of_settled err (fun _ => false) fs disk p
      ext (hs p (by simp)) rfl (hd p (by simp))
    have hstep : pipelineStep err (fun _ => false) disk ext (some (t, fs)) p =
        some (t, fs) := by
      simp only [pipelineStep]
      rw [hproc]
      rfl
    rw [hstep]
    exact run2_induct err disk ext rest fs t
      (fun q hq => hs q (by simp [hq])) (fun q hq => hd q (by simp [hq]))

theorem process_eq_empty (err rerr : FPath → Bool) (fs : FS) (disk : FPath)
    (p : String) (ext : String)
    (hemp : (list_dcm_files fs (disk ++ [p]) ext).isEmpty = true) :
    process_patient_directory err rerr fs disk p ext =
      some (0, fs, [.infoNoFiles p]) := by
  unfold process_patient_directory
  simp only [hemp, if_true]

theorem move_dcm_preserves_isDirAt (err : FPath → Bool) (C : List FPath)
    (pp : FPath) (fs : FS) (q : FPath) :
    (move_dcm_files err C pp fs).fs.isDirAt q = fs.isDirAt q := by
  unfold move_dcm_files
  rw [foldl_preserves_isDirAt]

theorem move_dcm_preserves_wf (err : FPath → Bool) (C : List FPath)
    (pp : FPath) (fs : FS) (hdir : fs.isDirAt pp = true) (hwf : fs.Wf) :
    (move_dcm_files err C pp fs).fs.Wf := by
  unfold move_dcm_files
  exact (foldl_preserves_wf err pp C ⟨fs, 0, []⟩ hdir hwf).1

theorem move_dcm_frame (err : FPath → Bool) (disk : FPath) (p : String)
    (C : List FPath) (fs : FS)
    (hunder : ∀ f ∈ C, properUnder (disk ++ [p]) f = true) :
    ((move_dcm_files err C (disk ++ [p]) fs).fs.listdir disk =
      fs.listdir disk) ∧
    (∀ p' : String, p ≠ p' → ∀ ext : String,
      list_dcm_files (move_dcm_files err C (disk ++ [p]) fs).fs
        (disk ++ [p']) ext = list_dcm_files fs (disk ++ [p']) ext) ∧
    (∀ p' : String, p ≠ p' → ∀ x : String,
      (move_dcm_files err C (disk ++ [p]) fs).fs.lookup
        ((disk ++ [p']) ++ [x]) = fs.lookup ((disk ++ [p']) ++ [x])) := by
  unfold move_dcm_files
  exact foldl_frame err disk p C ⟨fs, 0, []⟩ hunder

theorem move_dcm_settled (err : FPath → Bool) (pp : FPath) (ext : String)
    (fs : FS) (hwf : fs.Wf) :
    Settled err
      (move_dcm_files err (list_dcm_files fs pp ext) pp fs).fs pp ext := by
  unfold move_dcm_files
  exact settled_after_fold err pp ext fs hwf

theorem run1_induct (err : FPath → Bool) (disk : FPath) (ext : String) :
    ∀ (ps : List String) (fs : FS) (t : Nat) (done : List String),
      fs.Wf →
      (∀ p ∈ ps, fs.isDirAt (disk ++ [p]) = true) →
      (∀ p ∈ ps, p ∉ done) →
      ps.Nodup →
      (∀ p' ∈ done, Settled err fs (disk ++ [p']) ext) →
      ∃ t' fs',
        ps.foldl (pipelineStep err (fun _ => false) disk ext)
          (some (t, fs)) = some (t', fs') ∧
        fs'.Wf ∧
        (∀ q, fs'.isDirAt q = fs.isDirAt q) ∧
        fs'.listdir disk = fs.listdir disk ∧
        (∀ p' ∈ done ++ ps, Settled err fs' (disk ++ [p']) ext)
  | [], fs, t, done, hwf, _, _, _, hdone =>
    ⟨t, fs, rfl, hwf, fun _ => rfl, rfl, by simpa using hdone⟩
  | p :: rest, fs, t, done, hwf, hdirs, hnotdone, hndps, hdone => by
    rw [List.foldl_cons]
    rw [List.nodup_cons] at hndps
    have hdirp : fs.isDirAt (disk ++ [p]) = true := hdirs p (by simp)
    by_cases hemp : (list_dcm_files fs (disk ++ [p]) ext).isEmpty = true
    · -- no candidates: the state is untouched
      have hproc := process_eq_empty err (fun _ => false) fs disk p ext hemp
      have hstep : pipelineStep err (fun _ => false) disk ext
          (some (t, fs)) p = some (t, fs) := by
        simp only [pipelineStep]
        rw [hproc]
        rfl
      rw [hstep]
      have hsetp : Settled err fs (disk ++ [p]) ext := by
        intro f hf
        rw [List.isEmpty_iff.mp hemp] at hf
        cases hf
      obtain ⟨t', fs', ih1, ih2, ih3, ih4, ih5⟩ :=
        run1_induct err disk ext rest fs t (done ++ [p]) hwf
          (fun q hq => hdirs q (by simp [hq]))
          (fun q hq => by
            simp only [List.mem_append, List.mem_singleton]
            rintro (hc | hc)
            · exact hnotdone q (by simp [hq]) hc
            · rw [hc] at hq
              exact hndps.1 hq)
          hndps.2
          (fun p' hp' => by
            rcases List.mem_append.mp hp' with hc | hc
            · exact hdone p' hc
            · rw [List.mem_singleton.mp hc]
              exact hsetp)
      refine ⟨t', fs', ih1, ih2, ih3, ih4, ?_⟩
      intro p' hp'
      apply ih5
      simp only [List.mem_append, List.mem_cons, List.mem_singleton] at hp' ⊢
      tauto
    · -- candidates exist: process and re-establish the invariants
      have hemp2 : (list_dcm_files fs (disk ++ [p]) ext).isEmpty = false := by
        cases hv : (list_dcm_files fs (disk ++ [p]) ext).isEmpty with
        | false => rfl
        | true => exact absurd hv hemp
      have hdir1 : (move_dcm_files err (list_dcm_files fs (disk ++ [p]) ext)
          (disk ++ [p]) fs).fs.isDirAt (disk ++ [p]) = true := by
        rw [move_dcm_preserves_isDirAt]
        exact hdirp
      have hok : ((fun _ : FPath => false) (disk ++ [p]) ||
          !((move_dcm_files err (list_dcm_files fs (disk ++ [p]) ext)
              (disk ++ [p]) fs).fs.isDirAt (disk ++ [p]))) = false := by
        rw [hdir1]
        rfl
      have hproc := process_eq_of_nonempty err (fun _ => false) fs disk p ext
        hemp2 hok
      have hstep : pipelineStep err (fun _ => false) disk ext
          (some (t, fs)) p =
          some (t + (move_dcm_files err
            (list_dcm_files fs (disk ++ [p]) ext) (disk ++ [p])
            fs).movedCount,
            (move_dcm_files err (list_dcm_files fs (disk ++ [p]) ext)
              (disk ++ [p]) fs).fs) := by
        simp only [pipelineStep]
        rw [hproc]
      rw [hstep]
      have hunder : ∀ f ∈ list_dcm_files fs (disk ++ [p]) ext,
          properUnder (disk ++ [p]) f = true :=
        fun f hf => (mem_list_dcm_files_shape hf).1
      obtain ⟨hld, hwalkf, htops⟩ := move_dcm_frame err disk p
        (list_dcm_files fs (disk ++ [p]) ext) fs hunder
      have hwf1 : (move_dcm_files err (list_dcm_files fs (disk ++ [p]) ext)
          (disk ++ [p]) fs).fs.Wf :=
        move_dcm_preserves_wf err _ _ fs hdirp hwf
      have hsetp : Settled err (move_dcm_files err
          (list_dcm_files fs (disk ++ [p]) ext) (disk ++ [p]) fs).fs
          (disk ++ [p]) ext :=
        move_dcm_settled err (disk ++ [p]) ext fs hwf
      have hsetdone : ∀ p' ∈ done ++ [p], Settled err
          (move_dcm_files err (list_dcm_files fs (disk ++ [p]) ext)
            (disk ++ [p]) fs).fs (disk ++ [p']) ext := by
        intro p' hp'
        rcases List.mem_append.mp hp' with hc | hc
        · have hne : p ≠ p' := by
            intro hx
            exact hnotdone p (by simp) (hx ▸ hc)
          intro f hf
          rw [hwalkf p' hne ext] at hf
          rcases hdone p' hc f hf with hc2 | hc2
          · left
            have hpe := pathExists_eq_of_lookup_eq
              (htops p' hne (basename f))
            rw [hpe]
            exact hc2
          · exact Or.inr hc2
        · rw [List.mem_singleton.mp hc]
          exact hsetp
      obtain ⟨t', fs', ih1, ih2, ih3, ih4, ih5⟩ :=
        run1_induct err disk ext rest
          (move_dcm_files err (list_dcm_files fs (disk ++ [p]) ext)
            (disk ++ [p]) fs).fs
          (t + (move_dcm_files err (list_dcm_files fs (disk ++ [p]) ext)
            (disk ++ [p]) fs).movedCount)
          (done ++ [p]) hwf1
          (fun q hq => by
            rw [move_dcm_preserves_isDirAt]
            exact hdirs q (by simp [hq]))
          (fun q hq => by
            simp only [List.mem_append, List.mem_singleton]
            rintro (hc | hc)
            · exact hnotdone q (by simp [hq]) hc
            · rw [hc] at hq
              exact hndps.1 hq)
          hndps.2 hsetdone
      refine ⟨t', fs', ih1, ih2, ?_, ?_, ?_⟩
      · intro q
        rw [ih3, move_dcm_preserves_isDirAt]
      · rw [ih4, hld]
      · intro p' hp'
        apply ih5
        simp only [List.mem_append, List.mem_cons, List.mem_singleton]
          at hp' ⊢
        tauto

theorem patients_eq (fs1 fs0 : FS) (disk : FPath)
    (hld : fs1.listdir disk = fs0.listdir disk)
    (hdir : ∀ q, fs1.isDirAt q = fs0.isDirAt q) :
    (list_patient_directories fs1 disk false true).fst =
      (list_patient_directories fs0 disk false true).fst := by
  unfold list_patient_directories
  rw [hdir disk, hld,
    show (fun d => fs1.isDirAt (disk ++ [d])) =
      (fun d => fs0.isDirAt (disk ++ [d])) from funext (fun d => hdir _)]

/-- C9: running the pipeline twice in succession over a well-formed
root (same move-failure oracle, no recount failures, no external
changes between runs) completes both times, and the second run moves
zero files and leaves the filesystem exactly as the first run left it:
every file the first run moved already sits at its destination, so the
second run's existence check skips it. -/
theorem pipeline_idempotent (err : FPath → Bool) (fs0 : FS) (disk : FPath)
    (ext : String) (hwf : fs0.Wf) :
    ∃ t1 fs1,
      runPipeline err (fun _ => false) false fs0 disk ext =
        some (t1, fs1) ∧
      runPipeline err (fun _ => false) false fs1 disk ext =
        some (0, fs1) := by
  obtain ⟨t1, fs1, hrun1, hwf1, hIs1, hld1, hset1⟩ :=
    run1_induct err disk ext
      ((list_patient_directories fs0 disk false true).fst) fs0 0 [] hwf
      (fun p hp => patients_isDirAt hp)
      (fun p _ => List.not_mem_nil p)
      (patients_nodup hwf.1)
      (fun p' hp' => absurd hp' (List.not_mem_nil p'))
  refine ⟨t1, fs1, hrun1, ?_⟩
  unfold runPipeline
  rw [patients_eq fs1 fs0 disk hld1 hIs1]
  apply run2_induct
  · intro p hp
    exact hset1 p (by simpa using hp)
  · intro p hp
    rw [hIs1]
    exact patients_isDirAt hp

/-- Witness for C9 on the concrete fixture (the failure-free oracle). -/
theorem pipeline_idempotent_witness :
    fsA.Wf ∧
    (∃ t1 fs1,
      runPipeline (fun _ => false) (fun _ => false) false fsA ["d"]
        ".dcm" = some (t1, fs1) ∧
      runPipeline (fun _ => false) (fun _ => false) false fs1 ["d"]
        ".dcm" = some (0, fs1)) :=
  ⟨by decide,
    pipeline_idempotent (fun _ => false) fsA ["d"] ".dcm" (by decide)⟩
